import Mathlib

/-!
Verification of the postings-algebra and N-of-M threshold retrieval core of a
small inverted-index search engine.  The definitions below are a shallow
embedding of `in3120/postingsmerger.py` and `in3120/simplesearchengine.py`:
lazy posting-stream generators become functions on finite `List Posting`
values, and the loops become fuel-indexed structural recursions whose fuel is
provably sufficient (each loop iteration consumes at least one input element).
-/

namespace In3120

/-- One occurrence record of a term in a document (`posting.py`'s observable
fields used by the merge code: the ordering key and the frequency payload). -/
structure Posting where
  document_id : Nat
  term_frequency : Nat
deriving DecidableEq, Repr

/-- The document-id projection of a posting list. -/
def ids (l : List Posting) : List Nat := l.map Posting.document_id

@[simp] theorem ids_nil : ids [] = [] := rfl

@[simp] theorem ids_cons (p : Posting) (l : List Posting) :
    ids (p :: l) = p.document_id :: ids l := rfl

@[simp] theorem ids_append (l1 l2 : List Posting) :
    ids (l1 ++ l2) = ids l1 ++ ids l2 := by
  simp [ids]

/-- The precondition every merge operation assumes: document identifiers are
strictly increasing within one stream. -/
def SortedIds (l : List Posting) : Prop :=
  List.Sorted (· < ·) (ids l)

instance (l : List Posting) : Decidable (SortedIds l) := by
  unfold SortedIds List.Sorted
  infer_instance

theorem sortedIds_cons {p : Posting} {l : List Posting} :
    SortedIds (p :: l) ↔
      (∀ q ∈ l, p.document_id < q.document_id) ∧ SortedIds l := by
  simp [SortedIds, ids, List.sorted_cons]

/-- On a duplicate-free (sorted) stream, a posting is determined by its id. -/
theorem eq_of_sortedIds_of_mem {a : List Posting} (ha : SortedIds a) :
    ∀ p ∈ a, ∀ q ∈ a, p.document_id = q.document_id → p = q := by
  induction a with
  | nil => intro p hp; cases hp
  | cons x rest ih =>
    rcases sortedIds_cons.mp ha with ⟨hx, hrest⟩
    intro p hp q hq hpq
    rcases List.mem_cons.mp hp with rfl | hp'
    · rcases List.mem_cons.mp hq with rfl | hq'
      · rfl
      · exact absurd hpq (by have := hx q hq'; omega)
    · rcases List.mem_cons.mp hq with rfl | hq'
      · exact absurd hpq (by have := hx p hp'; omega)
      · exact ih hrest p hp' q hq' hpq

/-! ### `PostingsMerger.intersection` (postingsmerger.py, lines 18-45)

The generator primes one pointer per input (returning at once if either is
empty) and then loops: on equal ids it yields the left posting and advances
both pointers, otherwise it advances the pointer with the smaller id; the
loop breaks as soon as a `next` call fails.  `intersectionF` is that loop
with explicit fuel; one unit of fuel is consumed per loop iteration and each
iteration consumes at least one input element, so `length a + length b` fuel
is always enough. -/

def intersectionF : Nat → List Posting → List Posting → List Posting
  | _, [], _ => []
  | _, _, [] => []
  | 0, _, _ => []
  | fuel + 1, p1 :: r1, p2 :: r2 =>
    if p1.document_id = p2.document_id then
      p1 :: intersectionF fuel r1 r2
    else if p1.document_id < p2.document_id then
      intersectionF fuel r1 (p2 :: r2)
    else
      intersectionF fuel (p1 :: r1) r2

def intersection (a b : List Posting) : List Posting :=
  intersectionF (a.length + b.length) a b

theorem intersectionF_nil_left (f : Nat) (b : List Posting) :
    intersectionF f [] b = [] := by
  cases f <;> cases b <;> rfl

theorem intersectionF_nil_right (f : Nat) (a : List Posting) :
    intersectionF f a [] = [] := by
  cases f <;> cases a <;> rfl

theorem intersectionF_succ_cons (f : Nat) (p1 p2 : Posting)
    (r1 r2 : List Posting) :
    intersectionF (f + 1) (p1 :: r1) (p2 :: r2) =
      if p1.document_id = p2.document_id then
        p1 :: intersectionF f r1 r2
      else if p1.document_id < p2.document_id then
        intersectionF f r1 (p2 :: r2)
      else
        intersectionF f (p1 :: r1) r2 := rfl

/-- Fuel does not matter as long as it is at least the combined length. -/
theorem intersectionF_congr :
    ∀ (f g : Nat) (a b : List Posting),
      a.length + b.length ≤ f → a.length + b.length ≤ g →
      intersectionF f a b = intersectionF g a b := by
  intro f
  induction f with
  | zero =>
    intro g a b hf hg
    cases a with
    | nil => rw [intersectionF_nil_left, intersectionF_nil_left]
    | cons p1 r1 => simp at hf
  | succ f ih =>
    intro g a b hf hg
    cases a with
    | nil => rw [intersectionF_nil_left, intersectionF_nil_left]
    | cons p1 r1 =>
      cases b with
      | nil => rw [intersectionF_nil_right, intersectionF_nil_right]
      | cons p2 r2 =>
        cases g with
        | zero => simp at hg
        | succ g =>
          rw [intersectionF_succ_cons, intersectionF_succ_cons]
          simp only [List.length_cons] at hf hg
          split
          · rw [ih g r1 r2 (by omega) (by omega)]
          · split
            · rw [ih g r1 (p2 :: r2) (by simp; omega) (by simp; omega)]
            · rw [ih g (p1 :: r1) r2 (by simp; omega) (by simp; omega)]

@[simp] theorem intersection_nil_left (b : List Posting) :
    intersection [] b = [] := by
  simp [intersection, intersectionF_nil_left]

@[simp] theorem intersection_nil_right (a : List Posting) :
    intersection a [] = [] := by
  simp [intersection, intersectionF_nil_right]

theorem intersection_cons (p1 p2 : Posting) (r1 r2 : List Posting) :
    intersection (p1 :: r1) (p2 :: r2) =
      if p1.document_id = p2.document_id then
        p1 :: intersection r1 r2
      else if p1.document_id < p2.document_id then
        intersection r1 (p2 :: r2)
      else
        intersection (p1 :: r1) r2 := by
  have h : (p1 :: r1).length + (p2 :: r2).length =
      (r1.length + (r2.length + 1)) + 1 := by
    simp only [List.length_cons]; omega
  rw [intersection, h, intersectionF_succ_cons]
  split
  · rw [intersectionF_congr _ (r1.length + r2.length) r1 r2 (by omega) (by omega)]
    rfl
  · split
    · rw [intersectionF_congr _ (r1.length + (p2 :: r2).length) r1 (p2 :: r2)
        (by simp only [List.length_cons]; omega) (by simp only [List.length_cons]; omega)]
      rfl
    · rw [intersectionF_congr _ ((p1 :: r1).length + r2.length) (p1 :: r1) r2
        (by simp only [List.length_cons]; omega) (by simp only [List.length_cons]; omega)]
      rfl

/-- Id-level reading of the sortedness precondition. -/
theorem sortedIds_cons_ids {p : Posting} {l : List Posting} :
    SortedIds (p :: l) ↔
      (∀ x ∈ ids l, p.document_id < x) ∧ SortedIds l := by
  simp [SortedIds, List.sorted_cons, ids]

/-- Every posting yielded by `intersection` is the left operand's pointer
(the generator only ever yields `pointer1`). -/
theorem intersection_subset_left :
    ∀ (a b : List Posting), ∀ p ∈ intersection a b, p ∈ a := by
  intro a
  induction a with
  | nil => intro b p hp; simp at hp
  | cons p1 r1 ih1 =>
    intro b
    induction b with
    | nil => intro p hp; simp at hp
    | cons p2 r2 ih2 =>
      intro p hp
      rw [intersection_cons] at hp
      split at hp
      · rcases List.mem_cons.mp hp with rfl | hp'
        · exact List.mem_cons_self _ _
        · exact List.mem_cons_of_mem _ (ih1 r2 p hp')
      · split at hp
        · exact List.mem_cons_of_mem _ (ih1 (p2 :: r2) p hp)
        · exact ih2 p hp

/-- Document-id-set correctness of `intersection` on sorted streams. -/
theorem mem_ids_intersection :
    ∀ (a b : List Posting), SortedIds a → SortedIds b →
      ∀ d, (d ∈ ids (intersection a b) ↔ d ∈ ids a ∧ d ∈ ids b) := by
  intro a
  induction a with
  | nil => intro b _ _ d; simp
  | cons p1 r1 ih1 =>
    intro b
    induction b with
    | nil => intro _ _ d; simp
    | cons p2 r2 ih2 =>
      intro ha hb d
      rcases sortedIds_cons_ids.mp ha with ⟨h1, hr1⟩
      rcases sortedIds_cons_ids.mp hb with ⟨h2, hr2⟩
      rw [intersection_cons]
      split
      · rename_i heq
        simp only [ids_cons, List.mem_cons]
        rw [ih1 r2 hr1 hr2 d]
        constructor
        · rintro (rfl | ⟨hd1, hd2⟩)
          · exact ⟨Or.inl rfl, Or.inl heq⟩
          · exact ⟨Or.inr hd1, Or.inr hd2⟩
        · rintro ⟨hA, hB⟩
          rcases hA with rfl | hd1
          · exact Or.inl rfl
          · rcases hB with rfl | hd2
            · exact absurd (h1 _ hd1) (by omega)
            · exact Or.inr ⟨hd1, hd2⟩
      · rename_i hne
        split
        · rename_i hlt
          rw [ih1 (p2 :: r2) hr1 hb d]
          simp only [ids_cons, List.mem_cons]
          constructor
          · rintro ⟨hd1, hB⟩
            exact ⟨Or.inr hd1, hB⟩
          · rintro ⟨hA, hB⟩
            rcases hA with rfl | hd1
            · rcases hB with heq2 | hd2
              · omega
              · exact absurd (h2 _ hd2) (by omega)
            · exact ⟨hd1, hB⟩
        · rename_i hge
          rw [ih2 ha hr2 d]
          simp only [ids_cons, List.mem_cons]
          constructor
          · rintro ⟨hA, hd2⟩
            exact ⟨hA, Or.inr hd2⟩
          · rintro ⟨hA, hB⟩
            rcases hB with rfl | hd2
            · rcases hA with heq1 | hd1
              · omega
              · exact absurd (h1 _ hd1) (by omega)
            · exact ⟨hA, hd2⟩

/-- `intersection` emits ids in strictly increasing order. -/
theorem sortedIds_intersection :
    ∀ (a b : List Posting), SortedIds a → SortedIds b →
      SortedIds (intersection a b) := by
  intro a
  induction a with
  | nil => intro b _ _; simp [SortedIds]
  | cons p1 r1 ih1 =>
    intro b
    induction b with
    | nil => intro _ _; simp [SortedIds]
    | cons p2 r2 ih2 =>
      intro ha hb
      rcases sortedIds_cons_ids.mp ha with ⟨h1, hr1⟩
      rcases sortedIds_cons_ids.mp hb with ⟨h2, hr2⟩
      rw [intersection_cons]
      split
      · rename_i heq
        rw [sortedIds_cons_ids]
        refine ⟨?_, ih1 r2 hr1 hr2⟩
        intro x hx
        exact h1 x ((mem_ids_intersection r1 r2 hr1 hr2 x).mp hx).1
      · split
        · exact ih1 (p2 :: r2) hr1 hb
        · exact ih2 ha hr2

/-- The output is never longer than either input. -/
theorem length_intersection_le :
    ∀ (a b : List Posting),
      (intersection a b).length ≤ min a.length b.length := by
  intro a
  induction a with
  | nil => intro b; simp
  | cons p1 r1 ih1 =>
    intro b
    induction b with
    | nil => simp
    | cons p2 r2 ih2 =>
      rw [intersection_cons]
      split
      · have := ih1 r2
        simp only [List.length_cons]
        omega
      · split
        · have := ih1 (p2 :: r2)
          simp only [List.length_cons] at *
          omega
        · have := ih2
          simp only [List.length_cons] at *
          omega

/-! ### A plain deduplicating merge

`umerge` is the textbook sorted merge that keeps the left posting on an id
tie.  It is used as the comparison point for the faithful embedding of
`PostingsMerger.union` below: on sorted inputs the source's `has_seen`-based
generator produces exactly this merge. -/

def umergeF : Nat → List Posting → List Posting → List Posting
  | _, [], l2 => l2
  | _, l1, [] => l1
  | 0, l1, _ => l1
  | f + 1, p1 :: r1, p2 :: r2 =>
    if p1.document_id = p2.document_id then
      p1 :: umergeF f r1 r2
    else if p1.document_id < p2.document_id then
      p1 :: umergeF f r1 (p2 :: r2)
    else
      p2 :: umergeF f (p1 :: r1) r2

def umerge (a b : List Posting) : List Posting :=
  umergeF (a.length + b.length) a b

theorem umergeF_nil_left (f : Nat) (b : List Posting) :
    umergeF f [] b = b := by
  cases f <;> cases b <;> rfl

theorem umergeF_nil_right (f : Nat) (a : List Posting) :
    umergeF f a [] = a := by
  cases f <;> cases a <;> rfl

theorem umergeF_succ_cons (f : Nat) (p1 p2 : Posting) (r1 r2 : List Posting) :
    umergeF (f + 1) (p1 :: r1) (p2 :: r2) =
      if p1.document_id = p2.document_id then
        p1 :: umergeF f r1 r2
      else if p1.document_id < p2.document_id then
        p1 :: umergeF f r1 (p2 :: r2)
      else
        p2 :: umergeF f (p1 :: r1) r2 := rfl

theorem umergeF_congr :
    ∀ (f g : Nat) (a b : List Posting),
      a.length + b.length ≤ f → a.length + b.length ≤ g →
      umergeF f a b = umergeF g a b := by
  intro f
  induction f with
  | zero =>
    intro g a b hf hg
    cases a with
    | nil => rw [umergeF_nil_left, umergeF_nil_left]
    | cons p1 r1 => simp at hf
  | succ f ih =>
    intro g a b hf hg
    cases a with
    | nil => rw [umergeF_nil_left, umergeF_nil_left]
    | cons p1 r1 =>
      cases b with
      | nil => rw [umergeF_nil_right, umergeF_nil_right]
      | cons p2 r2 =>
        cases g with
        | zero => simp at hg
        | succ g =>
          rw [umergeF_succ_cons, umergeF_succ_cons]
          simp only [List.length_cons] at hf hg
          split
          · rw [ih g r1 r2 (by omega) (by omega)]
          · split
            · rw [ih g r1 (p2 :: r2) (by simp only [List.length_cons]; omega)
                (by simp only [List.length_cons]; omega)]
            · rw [ih g (p1 :: r1) r2 (by simp only [List.length_cons]; omega)
                (by simp only [List.length_cons]; omega)]

@[simp] theorem umerge_nil_left (b : List Posting) : umerge [] b = b := by
  simp [umerge, umergeF_nil_left]

@[simp] theorem umerge_nil_right (a : List Posting) : umerge a [] = a := by
  simp [umerge, umergeF_nil_right]

theorem umerge_cons (p1 p2 : Posting) (r1 r2 : List Posting) :
    umerge (p1 :: r1) (p2 :: r2) =
      if p1.document_id = p2.document_id then
        p1 :: umerge r1 r2
      else if p1.document_id < p2.document_id then
        p1 :: umerge r1 (p2 :: r2)
      else
        p2 :: umerge (p1 :: r1) r2 := by
  have h : (p1 :: r1).length + (p2 :: r2).length =
      (r1.length + (r2.length + 1)) + 1 := by
    simp only [List.length_cons]; omega
  rw [umerge, h, umergeF_succ_cons]
  split
  · rw [umergeF_congr _ (r1.length + r2.length) r1 r2 (by omega) (by omega)]
    rfl
  · split
    · rw [umergeF_congr _ (r1.length + (p2 :: r2).length) r1 (p2 :: r2)
        (by simp only [List.length_cons]; omega) (by simp only [List.length_cons]; omega)]
      rfl
    · rw [umergeF_congr _ ((p1 :: r1).length + r2.length) (p1 :: r1) r2
        (by simp only [List.length_cons]; omega) (by simp only [List.length_cons]; omega)]
      rfl

theorem mem_ids_umerge :
    ∀ (a b : List Posting) (d : Nat),
      d ∈ ids (umerge a b) ↔ d ∈ ids a ∨ d ∈ ids b := by
  intro a
  induction a with
  | nil => intro b d; simp
  | cons p1 r1 ih1 =>
    intro b
    induction b with
    | nil => intro d; simp
    | cons p2 r2 ih2 =>
      intro d
      rw [umerge_cons]
      split
      · rename_i heq
        simp only [ids_cons, List.mem_cons, ih1 r2 d]
        constructor
        · rintro (rfl | h | h)
          · exact Or.inl (Or.inl rfl)
          · exact Or.inl (Or.inr h)
          · exact Or.inr (Or.inr h)
        · rintro ((rfl | h) | (h | h))
          · exact Or.inl rfl
          · exact Or.inr (Or.inl h)
          · exact Or.inl (by omega)
          · exact Or.inr (Or.inr h)
      · split
        · simp only [ids_cons, List.mem_cons, ih1 (p2 :: r2) d]
          tauto
        · simp only [ids_cons, List.mem_cons, ih2 d]
          tauto

theorem umerge_mem_or :
    ∀ (a b : List Posting), ∀ p ∈ umerge a b, p ∈ a ∨ p ∈ b := by
  intro a
  induction a with
  | nil => intro b p hp; rw [umerge_nil_left] at hp; exact Or.inr hp
  | cons p1 r1 ih1 =>
    intro b
    induction b with
    | nil => intro p hp; rw [umerge_nil_right] at hp; exact Or.inl hp
    | cons p2 r2 ih2 =>
      intro p hp
      rw [umerge_cons] at hp
      split at hp
      · rcases List.mem_cons.mp hp with rfl | hp'
        · exact Or.inl (List.mem_cons_self _ _)
        · rcases ih1 r2 p hp' with h | h
          · exact Or.inl (List.mem_cons_of_mem _ h)
          · exact Or.inr (List.mem_cons_of_mem _ h)
      · split at hp
        · rcases List.mem_cons.mp hp with rfl | hp'
          · exact Or.inl (List.mem_cons_self _ _)
          · rcases ih1 (p2 :: r2) p hp' with h | h
            · exact Or.inl (List.mem_cons_of_mem _ h)
            · exact Or.inr h
        · rcases List.mem_cons.mp hp with rfl | hp'
          · exact Or.inr (List.mem_cons_self _ _)
          · rcases ih2 p hp' with h | h
            · exact Or.inl h
            · exact Or.inr (List.mem_cons_of_mem _ h)

theorem sortedIds_umerge :
    ∀ (a b : List Posting), SortedIds a → SortedIds b →
      SortedIds (umerge a b) := by
  intro a
  induction a with
  | nil => intro b _ hb; simpa using hb
  | cons p1 r1 ih1 =>
    intro b
    induction b with
    | nil => intro ha _; simpa using ha
    | cons p2 r2 ih2 =>
      intro ha hb
      rcases sortedIds_cons_ids.mp ha with ⟨h1, hr1⟩
      rcases sortedIds_cons_ids.mp hb with ⟨h2, hr2⟩
      rw [umerge_cons]
      split
      · rename_i heq
        rw [sortedIds_cons_ids]
        refine ⟨?_, ih1 r2 hr1 hr2⟩
        intro x hx
        rcases (mem_ids_umerge r1 r2 x).mp hx with h | h
        · exact h1 x h
        · exact heq ▸ h2 x h
      · rename_i hne
        split
        · rename_i hlt
          rw [sortedIds_cons_ids]
          refine ⟨?_, ih1 (p2 :: r2) hr1 hb⟩
          intro x hx
          rcases (mem_ids_umerge r1 (p2 :: r2) x).mp hx with h | h
          · exact h1 x h
          · rcases List.mem_cons.mp h with rfl | h'
            · exact hlt
            · have := h2 x h'
              omega
        · rename_i hge
          rw [sortedIds_cons_ids]
          refine ⟨?_, ih2 ha hr2⟩
          intro x hx
          rcases (mem_ids_umerge (p1 :: r1) r2 x).mp hx with h | h
          · rcases List.mem_cons.mp h with rfl | h'
            · omega
            · have := h1 x h'
              omega
          · exact h2 x h

/-- On sorted streams, any merged posting whose id occurs in the left stream
is the left stream's posting (left-operand-wins tie policy). -/
theorem umerge_left_wins :
    ∀ (a b : List Posting), SortedIds a → SortedIds b →
      ∀ q ∈ umerge a b, q.document_id ∈ ids a → q ∈ a := by
  intro a
  induction a with
  | nil => intro b _ _ q _ hid; simp at hid
  | cons p1 r1 ih1 =>
    intro b
    induction b with
    | nil => intro ha _ q hq _; simpa using hq
    | cons p2 r2 ih2 =>
      intro ha hb q hq hid
      rcases sortedIds_cons_ids.mp ha with ⟨h1, hr1⟩
      rcases sortedIds_cons_ids.mp hb with ⟨h2, hr2⟩
      rw [umerge_cons] at hq
      split at hq
      · rename_i heq
        rcases List.mem_cons.mp hq with rfl | hq'
        · exact List.mem_cons_self _ _
        · rcases List.mem_cons.mp hid with hqid | hqid
          · exfalso
            rcases umerge_mem_or r1 r2 q hq' with h | h
            · have := h1 q.document_id (List.mem_map_of_mem _ h)
              omega
            · have := h2 q.document_id (List.mem_map_of_mem _ h)
              omega
          · exact List.mem_cons_of_mem _ (ih1 r2 hr1 hr2 q hq' hqid)
      · rename_i hne
        split at hq
        · rename_i hlt
          rcases List.mem_cons.mp hq with rfl | hq'
          · exact List.mem_cons_self _ _
          · rcases List.mem_cons.mp hid with hqid | hqid
            · exfalso
              rcases umerge_mem_or r1 (p2 :: r2) q hq' with h | h
              · have := h1 q.document_id (List.mem_map_of_mem _ h)
                omega
              · rcases List.mem_cons.mp h with rfl | h'
                · omega
                · have := h2 q.document_id (List.mem_map_of_mem _ h')
                  omega
            · exact List.mem_cons_of_mem _ (ih1 (p2 :: r2) hr1 hb q hq' hqid)
        · rename_i hge
          rcases List.mem_cons.mp hq with rfl | hq'
          · exfalso
            rcases List.mem_cons.mp hid with hqid | hqid
            · omega
            · have := h1 q.document_id hqid
              omega
          · exact ih2 ha hr2 q hq' hid

/-! ### `PostingsMerger.union` (postingsmerger.py, lines 49-102)

The generator primes both pointers (falling back to draining the other
stream when one input is empty at once), runs a merge loop guarded by the
`has_seen` id set, and after the loop break re-checks both held pointers and
drains both iterators filtered through `has_seen`.  When a `next` call
raises StopIteration, the corresponding pointer variable keeps its previous
value, which is what the break cases below reproduce. -/

/-- One `if ... not in has_seen: yield ...; has_seen.add(...)` block:
the postings yielded and the updated seen set. -/
def emitIf (seen : List Nat) (p : Posting) : List Posting × List Nat :=
  if p.document_id ∈ seen then ([], seen) else ([p], p.document_id :: seen)

/-- The epilogue after the loop breaks (postingsmerger.py, lines 94-102):
re-check `pointer1`, drain `iter1` filtered by `has_seen`, re-check
`pointer2`, drain `iter2` filtered by the updated `has_seen`.  `r1`/`r2` are
the unconsumed remainders of the two iterators at the break. -/
def unionFinish (p1 p2 : Posting) (r1 r2 : List Posting) (seen : List Nat) :
    List Posting :=
  (emitIf seen p1).1 ++
    r1.filter (fun p => p.document_id ∉ (emitIf seen p1).2) ++
    (emitIf (emitIf seen p1).2 p2).1 ++
    r2.filter (fun p => p.document_id ∉ (emitIf (emitIf seen p1).2 p2).2)

/-- The `while True` merge loop (postingsmerger.py, lines 73-92) with fuel;
each iteration consumes an element from at least one input, so
`r1.length + r2.length + 1` fuel always suffices. -/
def unionLoopF : Nat → Posting → List Posting → Posting → List Posting →
    List Nat → List Posting
  | 0, _, _, _, _, _ => []
  | f + 1, p1, r1, p2, r2, seen =>
    if p1.document_id = p2.document_id then
      match r1, r2 with
      | [], _ =>
        (emitIf seen p1).1 ++ unionFinish p1 p2 [] r2 (emitIf seen p1).2
      | q1 :: r1x, [] =>
        (emitIf seen p1).1 ++ unionFinish q1 p2 r1x [] (emitIf seen p1).2
      | q1 :: r1x, q2 :: r2x =>
        (emitIf seen p1).1 ++ unionLoopF f q1 r1x q2 r2x (emitIf seen p1).2
    else if p1.document_id < p2.document_id then
      match r1 with
      | [] =>
        (emitIf seen p1).1 ++ unionFinish p1 p2 [] r2 (emitIf seen p1).2
      | q1 :: r1x =>
        (emitIf seen p1).1 ++ unionLoopF f q1 r1x p2 r2 (emitIf seen p1).2
    else
      match r2 with
      | [] =>
        (emitIf seen p2).1 ++ unionFinish p1 p2 r1 [] (emitIf seen p2).2
      | q2 :: r2x =>
        (emitIf seen p2).1 ++ unionLoopF f p1 r1 q2 r2x (emitIf seen p2).2

def union (a b : List Posting) : List Posting :=
  match a, b with
  | [], l2 => l2
  | p1 :: r1, [] => p1 :: r1
  | p1 :: r1, p2 :: r2 => unionLoopF (r1.length + r2.length + 1) p1 r1 p2 r2 []

theorem emitIf_not_mem {seen : List Nat} {p : Posting}
    (h : p.document_id ∉ seen) :
    emitIf seen p = ([p], p.document_id :: seen) := by
  simp [emitIf, h]

theorem emitIf_mem {seen : List Nat} {p : Posting}
    (h : p.document_id ∈ seen) :
    emitIf seen p = ([], seen) := by
  simp [emitIf, h]

theorem filter_not_seen_eq_self {l : List Posting} {seen : List Nat}
    (h : ∀ p ∈ l, p.document_id ∉ seen) :
    l.filter (fun p => p.document_id ∉ seen) = l := by
  rw [List.filter_eq_self]
  intro p hp
  simpa using h p hp

/-- Epilogue value when the loop broke out of the equal branch with `iter1`
exhausted: both pointers were already seen, the rest of `iter2` was not. -/
theorem unionFinish_eq_drain2 (p1 p2 : Posting) (r2 : List Posting)
    (seen : List Nat) (h1 : p1.document_id ∈ seen) (h2 : p2.document_id ∈ seen)
    (hr2 : ∀ p ∈ r2, p.document_id ∉ seen) :
    unionFinish p1 p2 [] r2 seen = r2 := by
  unfold unionFinish
  rw [emitIf_mem h1]
  rw [emitIf_mem h2]
  rw [filter_not_seen_eq_self hr2]
  simp

/-- Epilogue value when the loop broke with a fresh `pointer1` in hand and
`iter2` exhausted with an already-seen `pointer2`. -/
theorem unionFinish_eq_emit1 (p1 p2 : Posting) (r1 : List Posting)
    (seen : List Nat) (h1 : p1.document_id ∉ seen)
    (h2 : p2.document_id ∈ p1.document_id :: seen)
    (hr1 : ∀ p ∈ r1, p.document_id ∉ p1.document_id :: seen) :
    unionFinish p1 p2 r1 [] seen = p1 :: r1 := by
  unfold unionFinish
  rw [emitIf_not_mem h1]
  rw [emitIf_mem h2]
  rw [filter_not_seen_eq_self hr1]
  simp

/-- Epilogue value when the loop broke out of the less-than branch with
`iter1` exhausted: `pointer1` was seen, `pointer2` and `iter2` were not. -/
theorem unionFinish_eq_emit2 (p1 p2 : Posting) (r2 : List Posting)
    (seen : List Nat) (h1 : p1.document_id ∈ seen) (h2 : p2.document_id ∉ seen)
    (hr2 : ∀ p ∈ r2, p.document_id ∉ p2.document_id :: seen) :
    unionFinish p1 p2 [] r2 seen = p2 :: r2 := by
  unfold unionFinish
  rw [emitIf_mem h1]
  rw [emitIf_not_mem h2]
  rw [filter_not_seen_eq_self hr2]
  simp

/-- On sorted inputs, with every seen id strictly below both pointers (the
invariant the loop maintains), the `has_seen` union loop is the plain
deduplicating merge. -/
theorem unionLoopF_eq_umerge :
    ∀ (f : Nat) (p1 : Posting) (r1 : List Posting) (p2 : Posting)
      (r2 : List Posting) (seen : List Nat),
      r1.length + r2.length < f →
      SortedIds (p1 :: r1) → SortedIds (p2 :: r2) →
      (∀ s ∈ seen, s < p1.document_id ∧ s < p2.document_id) →
      unionLoopF f p1 r1 p2 r2 seen = umerge (p1 :: r1) (p2 :: r2) := by
  intro f
  induction f with
  | zero => intro p1 r1 p2 r2 seen hf _ _ _; omega
  | succ f ih =>
    intro p1 r1 p2 r2 seen hf ha hb hseen
    rcases sortedIds_cons_ids.mp ha with ⟨h1, hr1⟩
    rcases sortedIds_cons_ids.mp hb with ⟨h2, hr2⟩
    have hp1s : p1.document_id ∉ seen := fun hm => absurd (hseen _ hm).1 (by omega)
    have hp2s : p2.document_id ∉ seen := fun hm => absurd (hseen _ hm).2 (by omega)
    rw [umerge_cons]
    by_cases heq : p1.document_id = p2.document_id
    · rw [if_pos heq]
      cases r1 with
      | nil =>
        simp only [unionLoopF]
        rw [if_pos heq, umerge_nil_left, emitIf_not_mem hp1s]
        rw [unionFinish_eq_drain2 p1 p2 r2 _ (List.mem_cons_self _ _)
          (by rw [← heq]; exact List.mem_cons_self _ _)
          (fun p hp => by
            have := h2 p.document_id (List.mem_map_of_mem _ hp)
            simp only [List.mem_cons]
            push_neg
            exact ⟨by omega, fun hm => by have := (hseen _ hm).2; omega⟩)]
        rfl
      | cons q1 r1x =>
        have hq1 : p1.document_id < q1.document_id := h1 _ (by simp [ids])
        cases r2 with
        | nil =>
          simp only [unionLoopF]
          rw [if_pos heq, umerge_nil_right, emitIf_not_mem hp1s]
          rw [unionFinish_eq_emit1 q1 p2 r1x _
            (by
              simp only [List.mem_cons]
              push_neg
              exact ⟨by omega, fun hm => by have := (hseen _ hm).1; omega⟩)
            (by
              simp only [List.mem_cons]
              exact Or.inr (Or.inl heq.symm))
            (fun p hp => by
              have := (sortedIds_cons_ids.mp hr1).1 p.document_id
                (List.mem_map_of_mem _ hp)
              simp only [List.mem_cons]
              push_neg
              refine ⟨by omega, by omega, fun hm => ?_⟩
              have := (hseen _ hm).1
              omega)]
          rfl
        | cons q2 r2x =>
          have hq2 : p2.document_id < q2.document_id := h2 _ (by simp [ids])
          simp only [unionLoopF]
          rw [if_pos heq, emitIf_not_mem hp1s]
          rw [ih q1 r1x q2 r2x (p1.document_id :: seen)
            (by simp only [List.length_cons] at hf; omega) hr1 hr2
            (by
              intro s hs
              rcases List.mem_cons.mp hs with rfl | hsx
              · exact ⟨hq1, heq ▸ hq2⟩
              · have := hseen s hsx
                constructor <;> omega)]
          rfl
    · rw [if_neg heq]
      by_cases hlt : p1.document_id < p2.document_id
      · rw [if_pos hlt]
        cases r1 with
        | nil =>
          simp only [unionLoopF]
          rw [if_neg heq, if_pos hlt, umerge_nil_left, emitIf_not_mem hp1s]
          rw [unionFinish_eq_emit2 p1 p2 r2 _ (List.mem_cons_self _ _)
            (by
              simp only [List.mem_cons]
              push_neg
              exact ⟨by omega, fun hm => by have := (hseen _ hm).2; omega⟩)
            (fun p hp => by
              have := h2 p.document_id (List.mem_map_of_mem _ hp)
              simp only [List.mem_cons]
              push_neg
              refine ⟨by omega, by omega, fun hm => ?_⟩
              have := (hseen _ hm).2
              omega)]
          rfl
        | cons q1 r1x =>
          have hq1 : p1.document_id < q1.document_id := h1 _ (by simp [ids])
          simp only [unionLoopF]
          rw [if_neg heq, if_pos hlt, emitIf_not_mem hp1s]
          rw [ih q1 r1x p2 r2 (p1.document_id :: seen)
            (by simp only [List.length_cons] at hf; omega) hr1 hb
            (by
              intro s hs
              rcases List.mem_cons.mp hs with rfl | hsx
              · exact ⟨hq1, hlt⟩
              · have := hseen s hsx
                constructor <;> omega)]
          rfl
      · rw [if_neg hlt]
        cases r2 with
        | nil =>
          simp only [unionLoopF]
          rw [if_neg heq, if_neg hlt, umerge_nil_right, emitIf_not_mem hp2s]
          rw [unionFinish_eq_emit1 p1 p2 r1 _
            (by
              simp only [List.mem_cons]
              push_neg
              exact ⟨by omega, fun hm => by have := (hseen _ hm).1; omega⟩)
            (by simp)
            (fun p hp => by
              have := h1 p.document_id (List.mem_map_of_mem _ hp)
              simp only [List.mem_cons]
              push_neg
              refine ⟨by omega, by omega, fun hm => ?_⟩
              have := (hseen _ hm).1
              omega)]
          rfl
        | cons q2 r2x =>
          have hq2 : p2.document_id < q2.document_id := h2 _ (by simp [ids])
          simp only [unionLoopF]
          rw [if_neg heq, if_neg hlt, emitIf_not_mem hp2s]
          rw [ih p1 r1 q2 r2x (p2.document_id :: seen)
            (by simp only [List.length_cons] at hf; omega) ha hr2
            (by
              intro s hs
              rcases List.mem_cons.mp hs with rfl | hsx
              · exact ⟨by omega, hq2⟩
              · have := hseen s hsx
                constructor <;> omega)]
          rfl

/-- On sorted inputs, the source's union generator coincides with the plain
deduplicating merge. -/
theorem union_eq_umerge (a b : List Posting)
    (ha : SortedIds a) (hb : SortedIds b) :
    union a b = umerge a b := by
  cases a with
  | nil => simp [union]
  | cons p1 r1 =>
    cases b with
    | nil => simp [union]
    | cons p2 r2 =>
      show unionLoopF (r1.length + r2.length + 1) p1 r1 p2 r2 [] = _
      exact unionLoopF_eq_umerge _ p1 r1 p2 r2 [] (by omega) ha hb (by simp)


/-! ### `PostingsMerger.difference` (postingsmerger.py, lines 104-151)

The generator primes both pointers, then loops: an A id strictly below the
B pointer is yielded and remembered in `last_yielded`; a B pointer strictly
behind is advanced; on equal ids both advance without emission.  When a
`next` call raises the loop breaks, the held `pointer1` is re-emitted unless
it was the last posting yielded, and the rest of `iter1` is drained.  In the
equal branch `pointer1 = next(iter1)` runs before `pointer2 = next(iter2)`,
so a failed advance leaves `pointer1` at the matched posting — the fragile
boundary this embedding reproduces verbatim. -/

/-- The post-loop boundary check and drain (postingsmerger.py, lines
141-150): `p1` is the held pointer, `last` the last yielded posting, `r1`
the unconsumed remainder of `iter1`. -/
def diffPost (p1 : Posting) (last : Option Posting) (r1 : List Posting) :
    List Posting :=
  match last with
  | none => p1 :: r1
  | some l => if l.document_id ≠ p1.document_id then p1 :: r1 else r1

/-- The `while True` loop (postingsmerger.py, lines 127-139) with fuel;
each iteration consumes an element from at least one input. -/
def diffLoopF : Nat → Posting → List Posting → Posting → List Posting →
    Option Posting → List Posting
  | 0, _, _, _, _, _ => []
  | f + 1, p1, r1, p2, r2, last =>
    if p1.document_id < p2.document_id then
      match r1 with
      | [] => p1 :: diffPost p1 (some p1) []
      | q1 :: r1x => p1 :: diffLoopF f q1 r1x p2 r2 (some p1)
    else if p1.document_id > p2.document_id then
      match r2 with
      | [] => diffPost p1 last r1
      | q2 :: r2x => diffLoopF f p1 r1 q2 r2x last
    else
      match r1 with
      | [] => diffPost p1 last []
      | q1 :: r1x =>
        match r2 with
        | [] => diffPost q1 last r1x
        | q2 :: r2x => diffLoopF f q1 r1x q2 r2x last

def difference (a b : List Posting) : List Posting :=
  match a, b with
  | [], _ => []
  | p1 :: r1, [] => p1 :: r1
  | p1 :: r1, p2 :: r2 => diffLoopF (r1.length + r2.length + 1) p1 r1 p2 r2 none

/-! ### `SimpleSearchEngine.evaluate` (simplesearchengine.py, lines 37-89)

The merge loop keeps one cursor per unique query term: the current posting
(`postings[idx]`, `none` once the iterator is exhausted) and the unconsumed
remainder of that term's posting stream.  Each iteration takes the minimum
current document id, collects the cursors sitting on it, compares the group
size against the threshold, and advances exactly the group's cursors. -/

structure Cursor where
  current : Option Posting
  rest : List Posting
deriving DecidableEq, Repr

/-- `next(iterator, None)` on a fresh stream plus its remainder. -/
def initCursor (l : List Posting) : Cursor :=
  ⟨l.head?, l.tail⟩

/-- The postings a cursor can still deliver (current one included). -/
def streamOf (c : Cursor) : List Posting :=
  c.current.toList ++ c.rest

/-- Does this cursor currently sit on document `d`?  Mirrors
`posting is not None and posting.document_id == min_doc_id`. -/
def curMatches (d : Nat) (c : Cursor) : Bool :=
  match c.current with
  | some p => p.document_id == d
  | none => false

/-- Advance the cursors in the candidate group:
`postings[idx] = next(posting_iterators[idx])` with `None` on exhaustion. -/
def advance (d : Nat) (c : Cursor) : Cursor :=
  if curMatches d c then ⟨c.rest.head?, c.rest.tail⟩ else c

/-- `min(posting.document_id for posting in postings if posting is not None)`
as an `Option` (`none` when every cursor is exhausted). -/
def minDoc : List Cursor → Option Nat
  | [] => none
  | c :: rest =>
    match c.current, minDoc rest with
    | none, m => m
    | some p, none => some p.document_id
    | some p, some m => some (min p.document_id m)

/-- Total number of postings the state can still deliver; the loop's
termination measure. -/
def stMeasure (st : List Cursor) : Nat :=
  (st.map (fun c => (streamOf c).length)).sum

/-- The evaluation loop's trace: one `(min document id, candidate group
size)` pair per iteration of the `while has_remaining_postings` loop. -/
def evalTraceF : Nat → List Cursor → List (Nat × Nat)
  | 0, _ => []
  | f + 1, st =>
    match minDoc st with
    | none => []
    | some d => (d, st.countP (curMatches d)) :: evalTraceF f (st.map (advance d))

def evalTrace (st : List Cursor) : List (Nat × Nat) :=
  evalTraceF (stMeasure st) st

/-- The document ids `evaluate` accepts as matches: trace entries whose
candidate group has at least `n` members (`len(matching_indices) >= n`). -/
def matchedDocs (streams : List (List Posting)) (n : Nat) : List Nat :=
  ((evalTrace (streams.map initCursor)).filter (fun x => n ≤ x.2)).map (·.1)

/-! Structural facts about cursors, the minimum, and the measure. -/

theorem streamOf_initCursor : ∀ l : List Posting, streamOf (initCursor l) = l := by
  intro l
  cases l <;> rfl

theorem advance_eq (d : Nat) (c : Cursor) :
    advance d c = if curMatches d c then initCursor c.rest else c := rfl

theorem curMatches_iff {d : Nat} {c : Cursor} :
    curMatches d c = true ↔ ∃ p, c.current = some p ∧ p.document_id = d := by
  cases hc : c.current with
  | none => simp [curMatches, hc]
  | some p => simp [curMatches, hc]

/-- `GoodCursor` is the loop's per-cursor invariant: the remaining stream is
sorted, and an exhausted cursor has nothing left. -/
def GoodCursor (c : Cursor) : Prop :=
  SortedIds (streamOf c) ∧ (c.current = none → c.rest = [])

theorem goodCursor_initCursor {l : List Posting} (hl : SortedIds l) :
    GoodCursor (initCursor l) := by
  constructor
  · rw [streamOf_initCursor]; exact hl
  · intro h
    cases l with
    | nil => rfl
    | cons p r => simp [initCursor] at h

theorem goodCursor_advance {c : Cursor} (d : Nat) (hc : GoodCursor c) :
    GoodCursor (advance d c) := by
  rw [advance_eq]
  split
  · rename_i hm
    rcases curMatches_iff.mp hm with ⟨p, hp, _⟩
    have hst : streamOf c = p :: c.rest := by simp [streamOf, hp]
    constructor
    · rw [streamOf_initCursor]
      have := hc.1
      rw [hst] at this
      exact (sortedIds_cons_ids.mp this).2
    · intro h
      cases hr : c.rest with
      | nil => rfl
      | cons q t => simp [initCursor, hr] at h
  · exact hc

theorem minDoc_nil : minDoc [] = none := rfl

theorem minDoc_cons (c : Cursor) (rest : List Cursor) :
    minDoc (c :: rest) =
      match c.current, minDoc rest with
      | none, m => m
      | some p, none => some p.document_id
      | some p, some m => some (min p.document_id m) := rfl

theorem minDoc_none :
    ∀ st : List Cursor, minDoc st = none → ∀ c ∈ st, c.current = none := by
  intro st
  induction st with
  | nil => intro _ c hc; cases hc
  | cons c0 rest ih =>
    intro h c hc
    rw [minDoc_cons] at h
    cases hcur : c0.current with
    | none =>
      rw [hcur] at h
      rcases List.mem_cons.mp hc with rfl | hc'
      · exact hcur
      · exact ih (by cases hrest : minDoc rest <;> simp [hrest] at h ⊢) c hc'
    | some p =>
      rw [hcur] at h
      cases hrest : minDoc rest <;> rw [hrest] at h <;> simp at h

theorem minDoc_le :
    ∀ (st : List Cursor) (d : Nat), minDoc st = some d →
      ∀ c ∈ st, ∀ p, c.current = some p → d ≤ p.document_id := by
  intro st
  induction st with
  | nil => intro d _ c hc; cases hc
  | cons c0 rest ih =>
    intro d h c hc p hp
    rw [minDoc_cons] at h
    cases hcur : c0.current with
    | none =>
      rw [hcur] at h
      rcases List.mem_cons.mp hc with rfl | hc'
      · rw [hcur] at hp; cases hp
      · exact ih d h c hc' p hp
    | some q =>
      rw [hcur] at h
      cases hrest : minDoc rest with
      | none =>
        rw [hrest] at h
        simp at h
        rcases List.mem_cons.mp hc with rfl | hc'
        · rw [hcur] at hp
          cases hp
          omega
        · have := minDoc_none rest hrest c hc'
          rw [this] at hp
          cases hp
      | some m =>
        rw [hrest] at h
        simp at h
        rcases List.mem_cons.mp hc with rfl | hc'
        · rw [hcur] at hp
          cases hp
          omega
        · have := ih m hrest c hc' p hp
          omega

theorem minDoc_attained :
    ∀ (st : List Cursor) (d : Nat), minDoc st = some d →
      ∃ c ∈ st, curMatches d c = true := by
  intro st
  induction st with
  | nil => intro d h; cases h
  | cons c0 rest ih =>
    intro d h
    rw [minDoc_cons] at h
    cases hcur : c0.current with
    | none =>
      rw [hcur] at h
      rcases ih d h with ⟨c, hc, hm⟩
      exact ⟨c, List.mem_cons_of_mem _ hc, hm⟩
    | some q =>
      rw [hcur] at h
      cases hrest : minDoc rest with
      | none =>
        rw [hrest] at h
        simp at h
        refine ⟨c0, List.mem_cons_self _ _, ?_⟩
        rw [curMatches_iff]
        exact ⟨q, hcur, h⟩
      | some m =>
        rw [hrest] at h
        simp at h
        by_cases hqm : q.document_id ≤ m
        · refine ⟨c0, List.mem_cons_self _ _, ?_⟩
          rw [curMatches_iff]
          refine ⟨q, hcur, ?_⟩
          omega
        · have hd : d = m := by omega
          rcases ih m hrest with ⟨c, hc, hm2⟩
          exact ⟨c, List.mem_cons_of_mem _ hc, hd ▸ hm2⟩

theorem stMeasure_nil : stMeasure [] = 0 := rfl

theorem stMeasure_cons (c : Cursor) (rest : List Cursor) :
    stMeasure (c :: rest) = (streamOf c).length + stMeasure rest := by
  simp [stMeasure]

theorem length_streamOf_advance_le (d : Nat) (c : Cursor) :
    (streamOf (advance d c)).length ≤ (streamOf c).length := by
  rw [advance_eq]
  split
  · rename_i hm
    rcases curMatches_iff.mp hm with ⟨p, hp, _⟩
    rw [streamOf_initCursor]
    simp [streamOf, hp]
  · exact le_refl _

theorem length_streamOf_advance_lt (d : Nat) (c : Cursor)
    (hm : curMatches d c = true) :
    (streamOf (advance d c)).length < (streamOf c).length := by
  rw [advance_eq, if_pos hm]
  rcases curMatches_iff.mp hm with ⟨p, hp, _⟩
  rw [streamOf_initCursor]
  simp [streamOf, hp]

theorem stMeasure_advance_le :
    ∀ (st : List Cursor) (d : Nat),
      stMeasure (st.map (advance d)) ≤ stMeasure st := by
  intro st d
  induction st with
  | nil => simp [stMeasure]
  | cons c rest ih =>
    rw [List.map_cons, stMeasure_cons, stMeasure_cons]
    have := length_streamOf_advance_le d c
    omega

theorem stMeasure_advance_lt :
    ∀ (st : List Cursor) (d : Nat), minDoc st = some d →
      stMeasure (st.map (advance d)) < stMeasure st := by
  intro st d h
  rcases minDoc_attained st d h with ⟨c, hc, hm⟩
  clear h
  induction st with
  | nil => cases hc
  | cons c0 rest ih =>
    rw [List.map_cons, stMeasure_cons, stMeasure_cons]
    rcases List.mem_cons.mp hc with heq | hc'
    · rw [heq] at hm
      have h1 := length_streamOf_advance_lt d c0 hm
      have h2 := stMeasure_advance_le rest d
      omega
    · have h1 := length_streamOf_advance_le d c0
      have h2 := ih hc'
      omega

/-! Step equations and invariant lemmas for the evaluation trace. -/

theorem evalTraceF_zero (st : List Cursor) : evalTraceF 0 st = [] := rfl

theorem evalTraceF_succ_none (f : Nat) (st : List Cursor)
    (h : minDoc st = none) : evalTraceF (f + 1) st = [] := by
  simp only [evalTraceF, h]

theorem evalTraceF_succ_some (f : Nat) (st : List Cursor) (d : Nat)
    (h : minDoc st = some d) :
    evalTraceF (f + 1) st =
      (d, st.countP (curMatches d)) :: evalTraceF f (st.map (advance d)) := by
  simp only [evalTraceF, h]

theorem initCursor_current_mem {l : List Posting} {p : Posting}
    (h : (initCursor l).current = some p) : p ∈ l := by
  cases l with
  | nil => simp [initCursor] at h
  | cons x t =>
    simp only [initCursor, List.head?] at h
    injection h with h
    rw [← h]
    exact List.mem_cons_self _ _

/-- Once a cursor's pointers are at least `d`, the id `d` is left in the
cursor's stream exactly when the cursor currently sits on it. -/
theorem mem_ids_streamOf_iff {c : Cursor} {d : Nat}
    (hc : GoodCursor c) (hmin : ∀ p, c.current = some p → d ≤ p.document_id) :
    (d ∈ ids (streamOf c) ↔ curMatches d c = true) := by
  cases hcur : c.current with
  | none =>
    have hrest := hc.2 hcur
    simp [streamOf, hcur, hrest, curMatches]
  | some p =>
    have hst : streamOf c = p :: c.rest := by simp [streamOf, hcur]
    have hsorted := hc.1
    rw [hst] at hsorted
    rcases sortedIds_cons_ids.mp hsorted with ⟨hgt, _⟩
    have hd := hmin p hcur
    rw [hst, curMatches_iff]
    simp only [ids_cons, List.mem_cons]
    constructor
    · rintro (rfl | hmem)
      · exact ⟨p, hcur, rfl⟩
      · exact absurd (hgt d hmem) (by omega)
    · rintro ⟨q, hq, hqd⟩
      rw [hcur] at hq
      injection hq with hq
      rw [hq]
      exact Or.inl hqd.symm

theorem mem_ids_streamOf_advance_ne {c : Cursor} {d dx : Nat} (hne : dx ≠ d) :
    (dx ∈ ids (streamOf (advance d c)) ↔ dx ∈ ids (streamOf c)) := by
  rw [advance_eq]
  split
  · rename_i hm
    rcases curMatches_iff.mp hm with ⟨p, hp, hpd⟩
    rw [streamOf_initCursor]
    have hst : streamOf c = p :: c.rest := by simp [streamOf, hp]
    rw [hst]
    simp only [ids_cons, List.mem_cons]
    constructor
    · exact Or.inr
    · rintro (rfl | h)
      · exact absurd hpd hne
      · exact h
  · exact Iff.rfl

theorem not_mem_ids_streamOf_advance {c : Cursor} {d : Nat}
    (hc : GoodCursor c) (hmin : ∀ p, c.current = some p → d ≤ p.document_id) :
    d ∉ ids (streamOf (advance d c)) := by
  by_cases hm : curMatches d c = true
  · rw [advance_eq, if_pos hm]
    rcases curMatches_iff.mp hm with ⟨p, hp, hpd⟩
    rw [streamOf_initCursor]
    have hst : streamOf c = p :: c.rest := by simp [streamOf, hp]
    have hsorted := hc.1
    rw [hst] at hsorted
    rcases sortedIds_cons_ids.mp hsorted with ⟨hgt, _⟩
    intro hmem
    have := hgt d hmem
    omega
  · rw [advance_eq, if_neg hm]
    intro hmem
    exact hm ((mem_ids_streamOf_iff hc hmin).mp hmem)

theorem advance_current_lb {c : Cursor} {d b : Nat}
    (hc : GoodCursor c) (hcur : ∀ p, c.current = some p → b < p.document_id) :
    ∀ p, (advance d c).current = some p → b < p.document_id := by
  by_cases hm : curMatches d c = true
  · rw [advance_eq, if_pos hm]
    rcases curMatches_iff.mp hm with ⟨q, hq, hqd⟩
    intro p hp
    have hpmem : p ∈ c.rest := initCursor_current_mem hp
    have hst : streamOf c = q :: c.rest := by simp [streamOf, hq]
    have hsorted := hc.1
    rw [hst] at hsorted
    have hlt := (sortedIds_cons_ids.mp hsorted).1 p.document_id
      (List.mem_map_of_mem _ hpmem)
    have := hcur q hq
    omega
  · rw [advance_eq, if_neg hm]
    exact hcur

theorem goodState_advance {st : List Cursor} (d : Nat)
    (hG : ∀ c ∈ st, GoodCursor c) :
    ∀ cx ∈ st.map (advance d), GoodCursor cx := by
  intro cx hcx
  rcases List.mem_map.mp hcx with ⟨c, hc, rfl⟩
  exact goodCursor_advance d (hG c hc)

/-- After advancing the candidate group of the minimum `d`, every live
pointer sits strictly beyond `d`: the loop's global progress guarantee. -/
theorem advance_current_gt {st : List Cursor} {d : Nat}
    (hG : ∀ c ∈ st, GoodCursor c) (hmin : minDoc st = some d) :
    ∀ cx ∈ st.map (advance d), ∀ p, cx.current = some p →
      d < p.document_id := by
  intro cx hcx p hp
  rcases List.mem_map.mp hcx with ⟨c, hc, rfl⟩
  by_cases hm : curMatches d c = true
  · rcases curMatches_iff.mp hm with ⟨q, hq, hqd⟩
    rw [advance_eq, if_pos hm] at hp
    have hpmem : p ∈ c.rest := initCursor_current_mem hp
    have hst : streamOf c = q :: c.rest := by simp [streamOf, hq]
    have hsorted := (hG c hc).1
    rw [hst] at hsorted
    have hlt := (sortedIds_cons_ids.mp hsorted).1 p.document_id
      (List.mem_map_of_mem _ hpmem)
    omega
  · rw [advance_eq, if_neg hm] at hp
    have hle := minDoc_le st d hmin c hc p hp
    have hne : p.document_id ≠ d := by
      intro he
      exact hm (curMatches_iff.mpr ⟨p, hp, he⟩)
    omega

theorem evalTraceF_lower_bound :
    ∀ (f : Nat) (st : List Cursor) (b : Nat),
      (∀ c ∈ st, GoodCursor c) →
      (∀ c ∈ st, ∀ p, c.current = some p → b < p.document_id) →
      ∀ x ∈ evalTraceF f st, b < x.1 := by
  intro f
  induction f with
  | zero => intro st b _ _ x hx; cases hx
  | succ f ih =>
    intro st b hG hlb x hx
    cases hmin : minDoc st with
    | none => rw [evalTraceF_succ_none f st hmin] at hx; cases hx
    | some d =>
      rw [evalTraceF_succ_some f st d hmin] at hx
      rcases List.mem_cons.mp hx with rfl | hx2
      · rcases minDoc_attained st d hmin with ⟨c, hc, hm⟩
        rcases curMatches_iff.mp hm with ⟨p, hp, hpd⟩
        have := hlb c hc p hp
        simpa using hpd ▸ this
      · refine ih (st.map (advance d)) b (goodState_advance d hG) ?_ x hx2
        intro cx hcx
        rcases List.mem_map.mp hcx with ⟨c, hc, rfl⟩
        exact advance_current_lb (hG c hc) (hlb c hc)

/-- The per-iteration minima are strictly increasing along the trace. -/
theorem evalTraceF_sorted :
    ∀ (f : Nat) (st : List Cursor),
      (∀ c ∈ st, GoodCursor c) →
      List.Sorted (· < ·) ((evalTraceF f st).map (·.1)) := by
  intro f
  induction f with
  | zero => intro st _; simp [evalTraceF_zero]
  | succ f ih =>
    intro st hG
    cases hmin : minDoc st with
    | none => rw [evalTraceF_succ_none f st hmin]; simp
    | some d =>
      rw [evalTraceF_succ_some f st d hmin]
      rw [List.map_cons, List.sorted_cons]
      constructor
      · intro x hx
        rcases List.mem_map.mp hx with ⟨y, hy, rfl⟩
        simpa using evalTraceF_lower_bound f (st.map (advance d)) d
          (goodState_advance d hG) (advance_current_gt hG hmin) y hy
      · exact ih _ (goodState_advance d hG)

theorem countP_curMatches_eq_mem {st : List Cursor} {d : Nat}
    (hG : ∀ c ∈ st, GoodCursor c) (hmin : minDoc st = some d) :
    st.countP (curMatches d) =
      st.countP (fun c => decide (d ∈ ids (streamOf c))) := by
  apply List.countP_congr
  intro c hc
  rw [decide_eq_true_eq]
  exact (mem_ids_streamOf_iff (hG c hc) (minDoc_le st d hmin c hc)).symm

theorem countP_mem_advance_ne {st : List Cursor} {d dx : Nat} (hne : dx ≠ d) :
    (st.map (advance d)).countP (fun c => decide (dx ∈ ids (streamOf c))) =
      st.countP (fun c => decide (dx ∈ ids (streamOf c))) := by
  rw [List.countP_map]
  apply List.countP_congr
  intro c hc
  simp only [Function.comp_apply, decide_eq_true_eq]
  exact mem_ids_streamOf_advance_ne hne

theorem countP_mem_advance_self {st : List Cursor} {d : Nat}
    (hG : ∀ c ∈ st, GoodCursor c) (hmin : minDoc st = some d) :
    (st.map (advance d)).countP (fun c => decide (d ∈ ids (streamOf c))) = 0 := by
  rw [List.countP_map, List.countP_eq_zero]
  intro c hc
  simp only [Function.comp_apply, decide_eq_true_eq]
  exact not_mem_ids_streamOf_advance (hG c hc) (minDoc_le st d hmin c hc)

theorem streamOf_eq_nil_of_measure_zero {st : List Cursor}
    (h : stMeasure st = 0) : ∀ c ∈ st, streamOf c = [] := by
  intro c hc
  have hx : (streamOf c).length = 0 :=
    List.sum_eq_zero_iff.mp h _ (List.mem_map_of_mem _ hc)
  exact List.length_eq_zero.mp hx

/-- The heart of N-of-M evaluation: with sorted streams and a threshold of
at least one, a document id is accepted by the loop exactly when at least
`n` of the cursors' streams contain it. -/
theorem evalTraceF_matched_mem :
    ∀ (f : Nat) (st : List Cursor) (n : Nat), stMeasure st ≤ f →
      (∀ c ∈ st, GoodCursor c) → 1 ≤ n → ∀ d,
      (d ∈ ((evalTraceF f st).filter (fun x => n ≤ x.2)).map (·.1) ↔
        n ≤ st.countP (fun c => decide (d ∈ ids (streamOf c)))) := by
  intro f
  induction f with
  | zero =>
    intro st n hf hG hn d
    rw [evalTraceF_zero]
    simp only [List.filter_nil, List.map_nil, List.not_mem_nil, false_iff]
    intro hcount
    have h0 : st.countP (fun c => decide (d ∈ ids (streamOf c))) = 0 := by
      rw [List.countP_eq_zero]
      intro c hc
      have := streamOf_eq_nil_of_measure_zero (Nat.le_zero.mp hf) c hc
      simp [this]
    omega
  | succ f ih =>
    intro st n hf hG hn d
    cases hmin : minDoc st with
    | none =>
      rw [evalTraceF_succ_none f st hmin]
      simp only [List.filter_nil, List.map_nil, List.not_mem_nil, false_iff]
      intro hcount
      have h0 : st.countP (fun c => decide (d ∈ ids (streamOf c))) = 0 := by
        rw [List.countP_eq_zero]
        intro c hc
        have hcur := minDoc_none st hmin c hc
        have hrest := (hG c hc).2 hcur
        simp [streamOf, hcur, hrest]
      omega
    | some d0 =>
      rw [evalTraceF_succ_some f st d0 hmin]
      have hmea : stMeasure (st.map (advance d0)) ≤ f := by
        have := stMeasure_advance_lt st d0 hmin
        omega
      have hGx := goodState_advance d0 hG
      have hk : st.countP (curMatches d0) =
          st.countP (fun c => decide (d0 ∈ ids (streamOf c))) :=
        countP_curMatches_eq_mem hG hmin
      rw [List.filter_cons]
      by_cases hd : d = d0
      · rw [hd]
        by_cases hnk : n ≤ st.countP (curMatches d0)
        · rw [if_pos (by simpa using hnk)]
          simp only [List.map_cons, List.mem_cons]
          constructor
          · intro _
            rw [← hk]
            exact hnk
          · intro _
            exact Or.inl (by trivial)
        · rw [if_neg (by simpa using hnk)]
          rw [ih (st.map (advance d0)) n hmea hGx hn d0]
          rw [countP_mem_advance_self hG hmin]
          constructor
          · intro h
            omega
          · intro h
            rw [← hk] at h
            exact absurd h hnk
      · have htail := ih (st.map (advance d0)) n hmea hGx hn d
        rw [countP_mem_advance_ne hd] at htail
        by_cases hnk : n ≤ st.countP (curMatches d0)
        · rw [if_pos (by simpa using hnk)]
          simp only [List.map_cons, List.mem_cons]
          constructor
          · rintro (h | h)
            · exact absurd h hd
            · exact htail.mp h
          · intro h
            exact Or.inr (htail.mpr h)
        · rw [if_neg (by simpa using hnk)]
          exact htail

theorem goodState_init {streams : List (List Posting)}
    (hs : ∀ s ∈ streams, SortedIds s) :
    ∀ c ∈ streams.map initCursor, GoodCursor c := by
  intro c hc
  rcases List.mem_map.mp hc with ⟨s, hsmem, rfl⟩
  exact goodCursor_initCursor (hs s hsmem)

theorem countP_init_streams (streams : List (List Posting)) (d : Nat) :
    (streams.map initCursor).countP (fun c => decide (d ∈ ids (streamOf c))) =
      streams.countP (fun s => decide (d ∈ ids s)) := by
  rw [List.countP_map]
  apply List.countP_congr
  intro s hsx
  simp [streamOf_initCursor]

/-- `matchedDocs` accepts a document id exactly when at least `n` of the
query-term streams contain it. -/
theorem mem_matchedDocs {streams : List (List Posting)} {n : Nat}
    (hs : ∀ s ∈ streams, SortedIds s) (hn : 1 ≤ n) (d : Nat) :
    (d ∈ matchedDocs streams n ↔
      n ≤ streams.countP (fun s => decide (d ∈ ids s))) := by
  unfold matchedDocs evalTrace
  rw [evalTraceF_matched_mem _ _ n (le_refl _) (goodState_init hs) hn d,
    countP_init_streams]

/-! ### The M-way iterated merges the spec compares `evaluate` against. -/

def interAll : List (List Posting) → List Posting
  | [] => []
  | s :: rest => rest.foldl intersection s

def unionAll : List (List Posting) → List Posting
  | [] => []
  | s :: rest => rest.foldl union s

theorem foldl_intersection_spec :
    ∀ (l : List (List Posting)) (acc : List Posting),
      SortedIds acc → (∀ s ∈ l, SortedIds s) →
      SortedIds (l.foldl intersection acc) ∧
        ∀ d, (d ∈ ids (l.foldl intersection acc) ↔
          d ∈ ids acc ∧ ∀ s ∈ l, d ∈ ids s) := by
  intro l
  induction l with
  | nil =>
    intro acc ha _
    exact ⟨ha, by simp⟩
  | cons s rest ih =>
    intro acc ha hl
    have hs : SortedIds s := hl s (List.mem_cons_self _ _)
    have hacc : SortedIds (intersection acc s) :=
      sortedIds_intersection acc s ha hs
    have hrest : ∀ t ∈ rest, SortedIds t :=
      fun t ht => hl t (List.mem_cons_of_mem _ ht)
    rcases ih (intersection acc s) hacc hrest with ⟨h1, h2⟩
    rw [List.foldl_cons]
    refine ⟨h1, fun d => ?_⟩
    rw [h2 d, mem_ids_intersection acc s ha hs d]
    simp only [List.mem_cons]
    constructor
    · rintro ⟨⟨hda, hds⟩, hall⟩
      refine ⟨hda, fun t ht => ?_⟩
      rcases ht with rfl | ht2
      · exact hds
      · exact hall t ht2
    · rintro ⟨hda, hall⟩
      exact ⟨⟨hda, hall s (Or.inl rfl)⟩, fun t ht => hall t (Or.inr ht)⟩

theorem sortedIds_union (a b : List Posting)
    (ha : SortedIds a) (hb : SortedIds b) : SortedIds (union a b) := by
  rw [union_eq_umerge a b ha hb]
  exact sortedIds_umerge a b ha hb

theorem mem_ids_union (a b : List Posting)
    (ha : SortedIds a) (hb : SortedIds b) (d : Nat) :
    d ∈ ids (union a b) ↔ d ∈ ids a ∨ d ∈ ids b := by
  rw [union_eq_umerge a b ha hb]
  exact mem_ids_umerge a b d

theorem foldl_union_spec :
    ∀ (l : List (List Posting)) (acc : List Posting),
      SortedIds acc → (∀ s ∈ l, SortedIds s) →
      SortedIds (l.foldl union acc) ∧
        ∀ d, (d ∈ ids (l.foldl union acc) ↔
          d ∈ ids acc ∨ ∃ s ∈ l, d ∈ ids s) := by
  intro l
  induction l with
  | nil =>
    intro acc ha _
    exact ⟨ha, by simp⟩
  | cons s rest ih =>
    intro acc ha hl
    have hs : SortedIds s := hl s (List.mem_cons_self _ _)
    have hacc : SortedIds (union acc s) := sortedIds_union acc s ha hs
    have hrest : ∀ t ∈ rest, SortedIds t :=
      fun t ht => hl t (List.mem_cons_of_mem _ ht)
    rcases ih (union acc s) hacc hrest with ⟨h1, h2⟩
    rw [List.foldl_cons]
    refine ⟨h1, fun d => ?_⟩
    rw [h2 d, mem_ids_union acc s ha hs d]
    constructor
    · rintro ((hda | hds) | ⟨t, ht, hdt⟩)
      · exact Or.inl hda
      · exact Or.inr ⟨s, List.mem_cons_self _ _, hds⟩
      · exact Or.inr ⟨t, List.mem_cons_of_mem _ ht, hdt⟩
    · rintro (hda | ⟨t, ht, hdt⟩)
      · exact Or.inl (Or.inl hda)
      · rcases List.mem_cons.mp ht with rfl | ht2
        · exact Or.inl (Or.inr hdt)
        · exact Or.inr ⟨t, ht2, hdt⟩

/-! ### Threshold derivation (simplesearchengine.py, lines 53-54)

`n = max(1, min(m, int(treshold * m)))`, with Python's `int()` truncating
toward zero; the threshold itself is embedded as a rational. -/

/-- Python's `int()` on a real-valued expression: truncation toward zero. -/
def pyInt (q : ℚ) : ℤ := if q < 0 then ⌈q⌉ else ⌊q⌋

/-- `n = max(1, min(m, int(treshold * m)))` from the source. -/
def derivedN (t : ℚ) (m : Nat) : ℤ :=
  max 1 (min (m : ℤ) (pyInt (t * m)))

/-- Clamping to [0, 1], as the spec demands for out-of-range thresholds. -/
def clampQ (q : ℚ) : ℚ := max 0 (min 1 q)

theorem derivedN_eq_clamped (m : Nat) (hm : 1 ≤ m) (t : ℚ) :
    derivedN t m = max 1 (min (m : ℤ) ⌊clampQ t * (m : ℚ)⌋) := by
  have hmpos : 0 < m := hm
  have hm0 : (0 : ℚ) < (m : ℚ) := by exact_mod_cast hmpos
  by_cases ht0 : t < 0
  · have hc : clampQ t = 0 := by
      unfold clampQ
      rw [min_eq_right (le_of_lt (lt_of_lt_of_le ht0 zero_le_one)),
        max_eq_left (le_of_lt ht0)]
    have htm : t * m < 0 := mul_neg_of_neg_of_pos ht0 hm0
    unfold derivedN pyInt
    rw [if_pos htm, hc, zero_mul, Int.floor_zero]
    have h1 : ⌈t * (m : ℚ)⌉ ≤ 0 :=
      Int.ceil_le.mpr (by exact_mod_cast le_of_lt htm)
    omega
  · have htge : (0 : ℚ) ≤ t := not_lt.mp ht0
    by_cases ht1 : t ≤ 1
    · have hc : clampQ t = t := by
        unfold clampQ
        rw [min_eq_right ht1, max_eq_right htge]
      have htm : ¬t * (m : ℚ) < 0 :=
        not_lt.mpr (mul_nonneg htge (le_of_lt hm0))
      unfold derivedN pyInt
      rw [if_neg htm, hc]
    · have ht1x : (1 : ℚ) < t := not_le.mp ht1
      have hc : clampQ t = 1 := by
        unfold clampQ
        rw [min_eq_left (le_of_lt ht1x), max_eq_right zero_le_one]
      have htm : ¬t * (m : ℚ) < 0 :=
        not_lt.mpr (mul_nonneg htge (le_of_lt hm0))
      unfold derivedN pyInt
      rw [if_neg htm, hc, one_mul]
      have hfl : (m : ℤ) ≤ ⌊t * (m : ℚ)⌋ := by
        rw [Int.le_floor]
        push_cast
        exact le_mul_of_one_le_left (le_of_lt hm0) (le_of_lt ht1x)
      rw [Int.floor_natCast]
      omega

/-! ### The full `evaluate` with its collaborator calls

`evaluate` is embedded with an explicit trace of the calls it makes on the
inverted index (`get_postings_iterator`) and on the ranker
(`reset`/`update`/`evaluate`), so that statements about which collaborators
run are statements about a computed list.  The ranker itself is abstracted
as the score it would return for a document given the update calls fed to
it, and the sieve is modelled from the spec (sieve.py is not among the
sources). -/

inductive Effect where
  | lookup (term : Nat)
  | rankerReset (docId : Nat)
  | rankerUpdate (term : Nat) (multiplicity : Nat) (posting : Posting)
  | rankerEvaluate (docId : Nat)
deriving DecidableEq, Repr

/-- Unique query terms in first-occurrence order, as produced by
`Counter(terms)` followed by `list(term_counts)`. -/
def dedupFirst : List Nat → List Nat
  | [] => []
  | t :: rest => t :: (dedupFirst rest).filter (fun x => x ≠ t)

/-- The `(term, multiplicity, posting)` update arguments fed to the ranker
for the candidate group sitting on document `d`. -/
def groupArgs (d : Nat) (tcs : List (Nat × Cursor)) (counts : Nat → Nat) :
    List (Nat × Nat × Posting) :=
  tcs.filterMap (fun tc =>
    match tc.2.current with
    | some p =>
      if p.document_id = d then some (tc.1, counts tc.1, p) else none
    | none => none)

/-- The `while has_remaining_postings(postings)` loop
(simplesearchengine.py, lines 63-86), producing the collaborator-call trace
and the `(score, doc_id)` entries sifted into the sieve, in sift order. -/
def evalLoopF (score : Nat → List (Nat × Nat × Posting) → ℚ)
    (counts : Nat → Nat) (n : ℤ) :
    Nat → List (Nat × Cursor) → List Effect × List (ℚ × Nat)
  | 0, _ => ([], [])
  | f + 1, tcs =>
    match minDoc (tcs.map (·.2)) with
    | none => ([], [])
    | some d =>
      if n ≤ ((tcs.map (·.2)).countP (curMatches d) : ℤ) then
        (Effect.rankerReset d ::
            ((groupArgs d tcs counts).map
                (fun a => Effect.rankerUpdate a.1 a.2.1 a.2.2) ++
              Effect.rankerEvaluate d ::
                (evalLoopF score counts n f
                  (tcs.map (fun tc => (tc.1, advance d tc.2)))).1),
          (score d (groupArgs d tcs counts), d) ::
            (evalLoopF score counts n f
              (tcs.map (fun tc => (tc.1, advance d tc.2)))).2)
      else
        evalLoopF score counts n f (tcs.map (fun tc => (tc.1, advance d tc.2)))

/-- Modelled from the spec: the best-K collector ("sieve"; sieve.py is not
among the sources) drains its entries in descending score order, ties
broken by ascending document id, capped at `hit_count` when supplied. -/
def rankBefore (e1 e2 : ℚ × Nat) : Bool :=
  decide (e2.1 < e1.1 ∨ (e1.1 = e2.1 ∧ e1.2 ≤ e2.2))

def insertRanked (e : ℚ × Nat) : List (ℚ × Nat) → List (ℚ × Nat)
  | [] => [e]
  | x :: xs => if rankBefore e x then e :: x :: xs else x :: insertRanked e xs

def sortRanked : List (ℚ × Nat) → List (ℚ × Nat)
  | [] => []
  | x :: xs => insertRanked x (sortRanked xs)

/-- Modelled from the spec: `winners()` of the sieve. -/
def winners (cap : Option Nat) (entries : List (ℚ × Nat)) : List (ℚ × Nat) :=
  match cap with
  | none => sortRanked entries
  | some k => (sortRanked entries).take k

/-- One `(term, cursor)` pair per unique query term
(`posting_iterators` and `postings`, simplesearchengine.py, lines 57-58). -/
def termCursors (queryTerms : List Nat) (index : Nat → List Posting) :
    List (Nat × Cursor) :=
  (dedupFirst queryTerms).map (fun t => (t, initCursor (index t)))

/-- `SimpleSearchEngine.evaluate` (simplesearchengine.py, lines 37-89):
results paired with the trace of collaborator calls. -/
def evaluate (queryTerms : List Nat) (index : Nat → List Posting)
    (threshold : ℚ) (hitCount : Option Nat)
    (score : Nat → List (Nat × Nat × Posting) → ℚ) :
    List (ℚ × Nat) × List Effect :=
  let tcs := termCursors queryTerms index
  let n : ℤ := derivedN threshold (dedupFirst queryTerms).length
  let r := evalLoopF score (fun t => queryTerms.count t) n
    (stMeasure (tcs.map (·.2))) tcs
  (winners hitCount r.2, (dedupFirst queryTerms).map Effect.lookup ++ r.1)

theorem evaluate_fst (queryTerms : List Nat) (index : Nat → List Posting)
    (threshold : ℚ) (hitCount : Option Nat)
    (score : Nat → List (Nat × Nat × Posting) → ℚ) :
    (evaluate queryTerms index threshold hitCount score).1 =
      winners hitCount
        (evalLoopF score (fun t => queryTerms.count t)
          (derivedN threshold (dedupFirst queryTerms).length)
          (stMeasure ((termCursors queryTerms index).map (·.2)))
          (termCursors queryTerms index)).2 := rfl

theorem evaluate_snd (queryTerms : List Nat) (index : Nat → List Posting)
    (threshold : ℚ) (hitCount : Option Nat)
    (score : Nat → List (Nat × Nat × Posting) → ℚ) :
    (evaluate queryTerms index threshold hitCount score).2 =
      (dedupFirst queryTerms).map Effect.lookup ++
        (evalLoopF score (fun t => queryTerms.count t)
          (derivedN threshold (dedupFirst queryTerms).length)
          (stMeasure ((termCursors queryTerms index).map (·.2)))
          (termCursors queryTerms index)).1 := rfl

theorem insertRanked_perm (e : ℚ × Nat) :
    ∀ l : List (ℚ × Nat), (insertRanked e l).Perm (e :: l) := by
  intro l
  induction l with
  | nil => exact List.Perm.refl _
  | cons x xs ih =>
    unfold insertRanked
    split
    · exact List.Perm.refl _
    · exact (List.Perm.cons x ih).trans (List.Perm.swap e x xs)

theorem sortRanked_perm :
    ∀ l : List (ℚ × Nat), (sortRanked l).Perm l := by
  intro l
  induction l with
  | nil => exact List.Perm.refl _
  | cons x xs ih =>
    unfold sortRanked
    exact (insertRanked_perm x (sortRanked xs)).trans (List.Perm.cons x ih)

theorem mem_map_winners_none (entries : List (ℚ × Nat)) (d : Nat) :
    (d ∈ (winners none entries).map (·.2) ↔ d ∈ entries.map (·.2)) :=
  ((sortRanked_perm entries).map _).mem_iff

/-- The document ids sifted by the full loop are exactly the trace entries
meeting the threshold: the effectful loop and `evalTraceF` advance in
lockstep. -/
theorem evalLoopF_entries_docs
    (score : Nat → List (Nat × Nat × Posting) → ℚ)
    (counts : Nat → Nat) (n : ℤ) :
    ∀ (f : Nat) (tcs : List (Nat × Cursor)),
      (evalLoopF score counts n f tcs).2.map (·.2) =
        ((evalTraceF f (tcs.map (·.2))).filter
          (fun x => n.toNat ≤ x.2)).map (·.1) := by
  intro f
  induction f with
  | zero => intro tcs; rfl
  | succ f ih =>
    intro tcs
    cases hmin : minDoc (tcs.map (·.2)) with
    | none =>
      rw [evalTraceF_succ_none f _ hmin]
      simp only [evalLoopF, hmin]
      rfl
    | some d =>
      rw [evalTraceF_succ_some f _ d hmin]
      simp only [evalLoopF, hmin]
      have hmap : (tcs.map (fun tc => (tc.1, advance d tc.2))).map
          (fun x => x.2) = (tcs.map (fun x => x.2)).map (advance d) := by
        simp [List.map_map]
      rw [List.filter_cons]
      by_cases hcond : n ≤ ((tcs.map (·.2)).countP (curMatches d) : ℤ)
      · rw [if_pos hcond, if_pos (by simpa [Int.toNat_le] using hcond)]
        simp only [List.map_cons]
        rw [ih, hmap]
      · rw [if_neg hcond, if_neg (by simpa [Int.toNat_le] using hcond)]
        rw [ih, hmap]

/-- The matched document ids of a full `evaluate` run (no hit-count cap)
are `matchedDocs` of the looked-up streams at the derived threshold. -/
theorem evaluate_mem_docs (queryTerms : List Nat)
    (index : Nat → List Posting) (threshold : ℚ)
    (score : Nat → List (Nat × Nat × Posting) → ℚ) (d : Nat) :
    (d ∈ ((evaluate queryTerms index threshold none score).1).map (·.2) ↔
      d ∈ matchedDocs ((dedupFirst queryTerms).map index)
        (derivedN threshold (dedupFirst queryTerms).length).toNat) := by
  rw [evaluate_fst]
  show d ∈ ((winners none _).map _) ↔ _
  rw [mem_map_winners_none, evalLoopF_entries_docs]
  unfold matchedDocs evalTrace termCursors
  rw [show ((dedupFirst queryTerms).map
        (fun t => (t, initCursor (index t)))).map (fun x => x.2) =
      ((dedupFirst queryTerms).map index).map initCursor by
    simp [List.map_map]]

/-- Threshold option lookup:
`options.get("match_threshold", 0.75)` (simplesearchengine.py, line 53). -/
def thresholdOf (opt : Option ℚ) : ℚ := opt.getD (3 / 4)

theorem mem_ids_iff {l : List Posting} {d : Nat} :
    d ∈ ids l ↔ ∃ p ∈ l, p.document_id = d := by
  simp [ids, List.mem_map]

/-- Posting-level intersection membership on sorted streams. -/
theorem mem_intersection_posting {a b : List Posting}
    (ha : SortedIds a) (hb : SortedIds b) (q : Posting) :
    q ∈ intersection a b ↔ q ∈ a ∧ q.document_id ∈ ids b := by
  constructor
  · intro hq
    refine ⟨intersection_subset_left a b q hq, ?_⟩
    have : q.document_id ∈ ids (intersection a b) :=
      List.mem_map_of_mem _ hq
    exact ((mem_ids_intersection a b ha hb q.document_id).mp this).2
  · rintro ⟨hqa, hqb⟩
    have hmem : q.document_id ∈ ids (intersection a b) :=
      (mem_ids_intersection a b ha hb q.document_id).mpr
        ⟨List.mem_map_of_mem _ hqa, hqb⟩
    rcases mem_ids_iff.mp hmem with ⟨x, hx, hxd⟩
    have hxa : x ∈ a := intersection_subset_left a b x hx
    have : x = q := eq_of_sortedIds_of_mem ha x hxa q hqa hxd
    exact this ▸ hx

/-! ### A step machine for `intersection`'s pulling behaviour
(postingsmerger.py, lines 28-45)

To state resource claims about the generator — how many elements it has
pulled from each input, and that it stops dead once one input is exhausted —
the same code is embedded a second time as a small-step machine.  `pending1`
and `pending2` are the `pointer1`/`pointer2` variables (the only buffered
look-ahead the code holds), `in1`/`in2` the unconsumed remainders, and one
step is one pull attempt or one loop iteration.  `pulled` counts successful
`next` calls, `retired` counts pointer overwrites. -/

structure IState where
  pending1 : Option Posting
  pending2 : Option Posting
  in1 : List Posting
  in2 : List Posting
  pulled1 : Nat
  pulled2 : Nat
  retired1 : Nat
  retired2 : Nat
  halted : Bool
  out : List Posting
deriving DecidableEq, Repr

def istInit (a b : List Posting) : IState :=
  ⟨none, none, a, b, 0, 0, 0, 0, false, []⟩

def istStep (s : IState) : IState :=
  if s.halted then s
  else
    match s.pending1 with
    | none =>
      match s.in1 with
      | [] => { s with halted := true }
      | p :: r =>
        { s with
          pending1 := some p
          in1 := r
          pulled1 := s.pulled1 + 1 }
    | some p1 =>
      match s.pending2 with
      | none =>
        match s.in2 with
        | [] => { s with halted := true }
        | p :: r =>
          { s with
            pending2 := some p
            in2 := r
            pulled2 := s.pulled2 + 1 }
      | some p2 =>
        if p1.document_id = p2.document_id then
          match s.in1, s.in2 with
          | [], _ =>
            { s with
              out := s.out ++ [p1]
              halted := true }
          | q1 :: r1, [] =>
            { s with
              out := s.out ++ [p1]
              pending1 := some q1
              in1 := r1
              pulled1 := s.pulled1 + 1
              retired1 := s.retired1 + 1
              halted := true }
          | q1 :: r1, q2 :: r2 =>
            { s with
              out := s.out ++ [p1]
              pending1 := some q1
              pending2 := some q2
              in1 := r1
              in2 := r2
              pulled1 := s.pulled1 + 1
              retired1 := s.retired1 + 1
              pulled2 := s.pulled2 + 1
              retired2 := s.retired2 + 1 }
        else if p1.document_id < p2.document_id then
          match s.in1 with
          | [] => { s with halted := true }
          | q1 :: r1 =>
            { s with
              pending1 := some q1
              in1 := r1
              pulled1 := s.pulled1 + 1
              retired1 := s.retired1 + 1 }
        else
          match s.in2 with
          | [] => { s with halted := true }
          | q2 :: r2 =>
            { s with
              pending2 := some q2
              in2 := r2
              pulled2 := s.pulled2 + 1
              retired2 := s.retired2 + 1 }

def istRun : Nat → IState → IState
  | 0, s => s
  | k + 1, s => istRun k (istStep s)

/-- The pull accounting the machine maintains: each input has at most one
pulled-but-unretired element (the held pointer), and pulls plus unconsumed
elements account for the whole input. -/
def PullInv (a b : List Posting) (s : IState) : Prop :=
  s.pulled1 = s.retired1 + (if s.pending1.isSome then 1 else 0) ∧
  s.pulled2 = s.retired2 + (if s.pending2.isSome then 1 else 0) ∧
  s.pulled1 + s.in1.length = a.length ∧
  s.pulled2 + s.in2.length = b.length

theorem istStep_halted {s : IState} (h : s.halted = true) : istStep s = s := by
  unfold istStep
  rw [if_pos h]

theorem pullInv_init (a b : List Posting) : PullInv a b (istInit a b) := by
  refine ⟨rfl, rfl, ?_, ?_⟩ <;> simp [istInit]

theorem pullInv_step {a b : List Posting} {s : IState}
    (h : PullInv a b s) : PullInv a b (istStep s) := by
  obtain ⟨pd1, pd2, i1, i2, pu1, pu2, re1, re2, hl, o⟩ := s
  obtain ⟨h1, h2, h3, h4⟩ := h
  simp only [PullInv] at h1 h2 h3 h4 ⊢
  cases hl with
  | true => exact ⟨h1, h2, h3, h4⟩
  | false =>
    cases pd1 with
    | none =>
      cases i1 with
      | nil => exact ⟨h1, h2, h3, h4⟩
      | cons p r =>
        simp_all [istStep]
        omega
    | some p1 =>
      cases pd2 with
      | none =>
        cases i2 with
        | nil => exact ⟨h1, h2, h3, h4⟩
        | cons p r =>
          simp_all [istStep]
          omega
      | some p2 =>
        by_cases hd : p1.document_id = p2.document_id
        · cases i1 with
          | nil =>
            simp_all [istStep, if_pos hd] <;> omega
          | cons q1 r1 =>
            cases i2 with
            | nil =>
              simp_all [istStep, if_pos hd] <;> omega
            | cons q2 r2 =>
              simp_all [istStep, if_pos hd] <;> omega
        · by_cases hlt : p1.document_id < p2.document_id
          · cases i1 with
            | nil =>
              simp_all [istStep, if_neg hd, if_pos hlt] <;> omega
            | cons q1 r1 =>
              simp_all [istStep, if_neg hd, if_pos hlt] <;> omega
          · cases i2 with
            | nil =>
              simp_all [istStep, if_neg hd, if_neg hlt] <;> omega
            | cons q2 r2 =>
              simp_all [istStep, if_neg hd, if_neg hlt] <;> omega

theorem pullInv_run (a b : List Posting) :
    ∀ (k : Nat) (s : IState), PullInv a b s → PullInv a b (istRun k s) := by
  intro k
  induction k with
  | zero => intro s h; exact h
  | succ k ih => intro s h; exact ih (istStep s) (pullInv_step h)

theorem istRun_fix :
    ∀ (m : Nat) (s : IState), s.halted = true → istRun m s = s := by
  intro m
  induction m with
  | zero => intro s _; rfl
  | succ m ih =>
    intro s h
    show istRun m (istStep s) = s
    rw [istStep_halted h]
    exact ih s h

theorem istRun_add :
    ∀ (k m : Nat) (s : IState), istRun (k + m) s = istRun m (istRun k s) := by
  intro k
  induction k with
  | zero =>
    intro m s
    rw [Nat.zero_add]
    rfl
  | succ k ih =>
    intro m s
    rw [Nat.succ_add]
    exact ih m (istStep s)

/-! ### The claims -/

/-- C1 (code bug): `difference` must yield exactly A's postings whose ids do
not occur in B (its own ANDNOT docstring), but when both inputs exhaust on a
matching document id the `last_yielded` boundary check re-emits the matched
posting: on A = [(3,7)], B = [(3,5)] the code returns the id-3 posting even
though 3 occurs in B, where ANDNOT requires empty output. -/
theorem claim_c1_difference_boundary_bug :
    difference [Posting.mk 3 7] [Posting.mk 3 5] = [Posting.mk 3 7] ∧
      3 ∈ ids [Posting.mk 3 5] := by
  constructor <;> decide

/-- The concrete three-term inverted index of the spec's threshold example:
term 0 ↦ a = [1,3,5], term 1 ↦ b = [2,3,6], term 2 ↦ c = [3,4,5]. -/
def exIndex : Nat → List Posting
  | 0 => [⟨1, 1⟩, ⟨3, 1⟩, ⟨5, 1⟩]
  | 1 => [⟨2, 1⟩, ⟨3, 1⟩, ⟨6, 1⟩]
  | 2 => [⟨3, 1⟩, ⟨4, 1⟩, ⟨5, 1⟩]
  | _ => []

/-- C2: with streams a = [1,3,5], b = [2,3,6], c = [3,4,5], three unique
query terms and match_threshold 0.67 (so N = 2), `evaluate` matches exactly
the document ids 3 and 5 — for every ranker. -/
theorem claim_c2_threshold_example
    (score : Nat → List (Nat × Nat × Posting) → ℚ) (d : Nat) :
    (d ∈ ((evaluate [0, 1, 2] exIndex (67 / 100) none score).1).map (·.2) ↔
      (d = 3 ∨ d = 5)) := by
  rw [evaluate_mem_docs]
  have hn : (derivedN (67 / 100) (dedupFirst [0, 1, 2]).length).toNat = 2 := by
    show (derivedN (67 / 100) 3).toNat = 2
    unfold derivedN pyInt
    rw [if_neg (by norm_num)]
    have hfl : (⌊(67 / 100 : ℚ) * ((3 : ℕ) : ℚ)⌋ : ℤ) = 2 := by
      rw [Int.floor_eq_iff]
      constructor <;> norm_num
    rw [hfl]
    decide
  rw [hn]
  have hlist : matchedDocs ((dedupFirst [0, 1, 2]).map exIndex) 2 = [3, 5] := by
    decide
  rw [hlist]
  simp

/-- C3: with M streams and threshold N = M the loop's matched id set is the
M-way iterated `intersection`; with N = 1 it is the M-way iterated `union`.
`matchedDocs` is `evaluate`'s matching loop (see `evaluate_mem_docs`). -/
theorem claim_c3_degenerate_cases (streams : List (List Posting))
    (hne : streams ≠ []) (hs : ∀ s ∈ streams, SortedIds s) :
    (∀ d, d ∈ matchedDocs streams streams.length ↔
      d ∈ ids (interAll streams)) ∧
    (∀ d, d ∈ matchedDocs streams 1 ↔ d ∈ ids (unionAll streams)) := by
  obtain ⟨s, rest, rfl⟩ : ∃ s rest, streams = s :: rest := by
    cases streams with
    | nil => exact absurd rfl hne
    | cons s rest => exact ⟨s, rest, rfl⟩
  have hs0 : SortedIds s := hs s (List.mem_cons_self _ _)
  have hrest : ∀ t ∈ rest, SortedIds t :=
    fun t ht => hs t (List.mem_cons_of_mem _ ht)
  constructor
  · intro d
    rw [mem_matchedDocs hs (by simp only [List.length_cons]; omega)]
    have hspec := foldl_intersection_spec rest s hs0 hrest
    rw [show interAll (s :: rest) = rest.foldl intersection s from rfl,
      hspec.2 d]
    constructor
    · intro h
      have hall : ∀ t ∈ s :: rest, (fun t => decide (d ∈ ids t)) t = true := by
        rw [← List.countP_eq_length]
        have hle := @List.countP_le_length _ (fun t => decide (d ∈ ids t))
          (s :: rest)
        omega
      refine ⟨by simpa using hall s (List.mem_cons_self _ _), ?_⟩
      intro t ht
      simpa using hall t (List.mem_cons_of_mem _ ht)
    · rintro ⟨hd1, hall⟩
      have hAll : ∀ t ∈ s :: rest, (fun t => decide (d ∈ ids t)) t = true := by
        intro t ht
        rcases List.mem_cons.mp ht with rfl | ht2
        · simpa using hd1
        · simpa using hall t ht2
      rw [List.countP_eq_length.mpr hAll]
  · intro d
    rw [mem_matchedDocs hs (le_refl 1)]
    have hspec := foldl_union_spec rest s hs0 hrest
    rw [show unionAll (s :: rest) = rest.foldl union s from rfl, hspec.2 d]
    constructor
    · intro h
      rcases List.countP_pos_iff.mp h with ⟨t, ht, hdt⟩
      rcases List.mem_cons.mp ht with rfl | ht2
      · exact Or.inl (by simpa using hdt)
      · exact Or.inr ⟨t, ht2, by simpa using hdt⟩
    · rintro (hd1 | ⟨t, ht, hdt⟩)
      · exact List.countP_pos_iff.mpr
          ⟨s, List.mem_cons_self _ _, by simpa using hd1⟩
      · exact List.countP_pos_iff.mpr
          ⟨t, List.mem_cons_of_mem _ ht, by simpa using hdt⟩

theorem claim_c3_witness :
    (∀ d, d ∈ matchedDocs
        [[Posting.mk 1 1, Posting.mk 3 1, Posting.mk 5 1],
         [Posting.mk 3 1, Posting.mk 5 1, Posting.mk 7 1],
         [Posting.mk 3 1, Posting.mk 5 1, Posting.mk 9 1]] 3 ↔
      d ∈ ids (interAll
        [[Posting.mk 1 1, Posting.mk 3 1, Posting.mk 5 1],
         [Posting.mk 3 1, Posting.mk 5 1, Posting.mk 7 1],
         [Posting.mk 3 1, Posting.mk 5 1, Posting.mk 9 1]])) ∧
    (∀ d, d ∈ matchedDocs
        [[Posting.mk 1 1, Posting.mk 3 1, Posting.mk 5 1],
         [Posting.mk 3 1, Posting.mk 5 1, Posting.mk 7 1],
         [Posting.mk 3 1, Posting.mk 5 1, Posting.mk 9 1]] 1 ↔
      d ∈ ids (unionAll
        [[Posting.mk 1 1, Posting.mk 3 1, Posting.mk 5 1],
         [Posting.mk 3 1, Posting.mk 5 1, Posting.mk 7 1],
         [Posting.mk 3 1, Posting.mk 5 1, Posting.mk 9 1]])) :=
  claim_c3_degenerate_cases _ (by decide) (by decide)

/-- C4: on sorted streams `intersection`'s id set is the set intersection,
emitted in strictly ascending order, with length at most the shorter
input's. -/
theorem claim_c4_intersection_correct (a b : List Posting)
    (ha : SortedIds a) (hb : SortedIds b) :
    (∀ d, d ∈ ids (intersection a b) ↔ d ∈ ids a ∧ d ∈ ids b) ∧
    SortedIds (intersection a b) ∧
    (intersection a b).length ≤ min a.length b.length :=
  ⟨mem_ids_intersection a b ha hb, sortedIds_intersection a b ha hb,
    length_intersection_le a b⟩

theorem claim_c4_witness :
    (∀ d, d ∈ ids (intersection [Posting.mk 1 1, Posting.mk 3 1, Posting.mk 5 1]
        [Posting.mk 2 2, Posting.mk 3 2, Posting.mk 5 2]) ↔
      d ∈ ids [Posting.mk 1 1, Posting.mk 3 1, Posting.mk 5 1] ∧
        d ∈ ids [Posting.mk 2 2, Posting.mk 3 2, Posting.mk 5 2]) ∧
    SortedIds (intersection [Posting.mk 1 1, Posting.mk 3 1, Posting.mk 5 1]
      [Posting.mk 2 2, Posting.mk 3 2, Posting.mk 5 2]) ∧
    (intersection [Posting.mk 1 1, Posting.mk 3 1, Posting.mk 5 1]
        [Posting.mk 2 2, Posting.mk 3 2, Posting.mk 5 2]).length ≤
      min ([Posting.mk 1 1, Posting.mk 3 1, Posting.mk 5 1] : List Posting).length
        ([Posting.mk 2 2, Posting.mk 3 2, Posting.mk 5 2] : List Posting).length :=
  claim_c4_intersection_correct _ _ (by decide) (by decide)

/-- C5: on sorted streams `union` yields each id of the set union exactly
once, in strictly ascending order (ascending ids imply no duplicates). -/
theorem claim_c5_union_correct (a b : List Posting)
    (ha : SortedIds a) (hb : SortedIds b) :
    (∀ d, d ∈ ids (union a b) ↔ d ∈ ids a ∨ d ∈ ids b) ∧
    SortedIds (union a b) ∧ (ids (union a b)).Nodup :=
  ⟨mem_ids_union a b ha hb, sortedIds_union a b ha hb,
    (sortedIds_union a b ha hb).nodup⟩

theorem claim_c5_witness :
    (∀ d, d ∈ ids (union [Posting.mk 1 1, Posting.mk 3 1]
        [Posting.mk 2 2, Posting.mk 3 2, Posting.mk 6 2]) ↔
      d ∈ ids [Posting.mk 1 1, Posting.mk 3 1] ∨
        d ∈ ids [Posting.mk 2 2, Posting.mk 3 2, Posting.mk 6 2]) ∧
    SortedIds (union [Posting.mk 1 1, Posting.mk 3 1]
      [Posting.mk 2 2, Posting.mk 3 2, Posting.mk 6 2]) ∧
    (ids (union [Posting.mk 1 1, Posting.mk 3 1]
      [Posting.mk 2 2, Posting.mk 3 2, Posting.mk 6 2])).Nodup :=
  claim_c5_union_correct _ _ (by decide) (by decide)

/-- C6: for every supplied `match_threshold` (default 0.75 when absent) and
M ≥ 1, the code's `n = max(1, min(m, int(t*m)))` equals the spec's clamped
derivation `max(1, min(M, floor(clamp(t,0,1) × M)))`: out-of-range
thresholds behave as if clamped to [0, 1]. -/
theorem claim_c6_threshold_derivation (opt : Option ℚ) (m : Nat)
    (hm : 1 ≤ m) :
    thresholdOf none = 3 / 4 ∧
    derivedN (thresholdOf opt) m =
      max 1 (min (m : ℤ) ⌊clampQ (thresholdOf opt) * (m : ℚ)⌋) :=
  ⟨rfl, derivedN_eq_clamped m hm (thresholdOf opt)⟩

theorem claim_c6_witness :
    thresholdOf none = 3 / 4 ∧
    derivedN (thresholdOf (some (3 / 2))) 4 =
      max 1 (min ((4 : Nat) : ℤ) ⌊clampQ (thresholdOf (some (3 / 2))) * ((4 : Nat) : ℚ)⌋) :=
  claim_c6_threshold_derivation (some (3 / 2)) 4 (by decide)

/-- C7: a query with zero unique terms yields no results, performs no index
lookup and no ranker call (the whole effect trace is empty). -/
theorem claim_c7_empty_query (queryTerms : List Nat)
    (index : Nat → List Posting) (threshold : ℚ) (hitCount : Option Nat)
    (score : Nat → List (Nat × Nat × Posting) → ℚ)
    (h : dedupFirst queryTerms = []) :
    evaluate queryTerms index threshold hitCount score = ([], []) := by
  have hq : queryTerms = [] := by
    cases queryTerms with
    | nil => rfl
    | cons t rest => simp [dedupFirst] at h
  subst hq
  cases hitCount with
  | none => rfl
  | some k =>
    show (winners (some k) [], ([] : List Effect)) = ([], [])
    simp [winners, sortRanked]

theorem claim_c7_witness :
    dedupFirst [] = [] ∧
    evaluate [] exIndex (3 / 4) none (fun _ _ => 0) = ([], []) :=
  ⟨rfl, claim_c7_empty_query [] exIndex (3 / 4) none (fun _ _ => 0) rfl⟩

/-- C8: over sorted streams the per-iteration minimum document ids are
strictly increasing along the trace — hence non-decreasing (global
progress) and pairwise distinct (each document id considered at most
once). -/
theorem claim_c8_loop_progress (streams : List (List Posting))
    (hs : ∀ s ∈ streams, SortedIds s) :
    List.Sorted (· < ·) ((evalTrace (streams.map initCursor)).map (·.1)) ∧
    List.Chain' (· ≤ ·) ((evalTrace (streams.map initCursor)).map (·.1)) ∧
    ((evalTrace (streams.map initCursor)).map (·.1)).Nodup := by
  have hsorted := evalTraceF_sorted (stMeasure (streams.map initCursor))
    (streams.map initCursor) (goodState_init hs)
  exact ⟨hsorted, (hsorted.imp fun h => le_of_lt h).chain', hsorted.nodup⟩

theorem claim_c8_witness :
    List.Sorted (· < ·) ((evalTrace
      ([[Posting.mk 1 1, Posting.mk 3 1, Posting.mk 5 1],
        [Posting.mk 2 1, Posting.mk 3 1, Posting.mk 6 1],
        [Posting.mk 3 1, Posting.mk 4 1, Posting.mk 5 1]].map initCursor)).map (·.1)) ∧
    List.Chain' (· ≤ ·) ((evalTrace
      ([[Posting.mk 1 1, Posting.mk 3 1, Posting.mk 5 1],
        [Posting.mk 2 1, Posting.mk 3 1, Posting.mk 6 1],
        [Posting.mk 3 1, Posting.mk 4 1, Posting.mk 5 1]].map initCursor)).map (·.1)) ∧
    ((evalTrace
      ([[Posting.mk 1 1, Posting.mk 3 1, Posting.mk 5 1],
        [Posting.mk 2 1, Posting.mk 3 1, Posting.mk 6 1],
        [Posting.mk 3 1, Posting.mk 4 1, Posting.mk 5 1]].map initCursor)).map (·.1)).Nodup :=
  claim_c8_loop_progress _ (by decide)

/-- C9: at any time during `intersection`'s run each input has at most one
pulled-but-unretired look-ahead element, pulls never exceed the input, and
once the machine halts (a `next` raised StopIteration) no further step
changes the state — in particular nothing more is pulled from the surviving
stream. -/
theorem claim_c9_intersection_pull_discipline (a b : List Posting)
    (k m : Nat) :
    ((istRun k (istInit a b)).pulled1 ≤ (istRun k (istInit a b)).retired1 + 1 ∧
     (istRun k (istInit a b)).pulled2 ≤ (istRun k (istInit a b)).retired2 + 1 ∧
     (istRun k (istInit a b)).pulled1 + (istRun k (istInit a b)).in1.length =
       a.length ∧
     (istRun k (istInit a b)).pulled2 + (istRun k (istInit a b)).in2.length =
       b.length) ∧
    ((istRun k (istInit a b)).halted = true →
      istRun (k + m) (istInit a b) = istRun k (istInit a b)) := by
  constructor
  · obtain ⟨h1, h2, h3, h4⟩ := pullInv_run a b k (istInit a b) (pullInv_init a b)
    refine ⟨?_, ?_, h3, h4⟩
    · rw [h1]
      split <;> omega
    · rw [h2]
      split <;> omega
  · intro hh
    rw [istRun_add k m (istInit a b)]
    exact istRun_fix m _ hh

theorem claim_c9_witness :
    (istRun 1 (istInit [] [Posting.mk 1 1, Posting.mk 2 1])).halted = true ∧
    istRun (1 + 5) (istInit [] [Posting.mk 1 1, Posting.mk 2 1]) =
      istRun 1 (istInit [] [Posting.mk 1 1, Posting.mk 2 1]) ∧
    (istRun 1 (istInit [] [Posting.mk 1 1, Posting.mk 2 1])).pulled2 = 0 ∧
    (istRun 1 (istInit [] [Posting.mk 1 1, Posting.mk 2 1])).in2.length = 2 :=
  ⟨by decide,
    (claim_c9_intersection_pull_discipline [] [Posting.mk 1 1, Posting.mk 2 1]
      1 5).2 (by decide),
    by decide, by decide⟩

/-- C10: when both sorted inputs hold a posting for the same document id,
`intersection` and `union` both emit the left operand's posting object for
that id (and nothing else with that id), so the emitted term frequency is
the left operand's. -/
theorem claim_c10_left_operand_wins (a b : List Posting)
    (ha : SortedIds a) (hb : SortedIds b) (p : Posting)
    (hpa : p ∈ a) (hpb : p.document_id ∈ ids b) :
    (p ∈ intersection a b ∧
      ∀ q ∈ intersection a b, q.document_id = p.document_id → q = p) ∧
    (p ∈ union a b ∧
      ∀ q ∈ union a b, q.document_id = p.document_id → q = p) := by
  constructor
  · constructor
    · exact (mem_intersection_posting ha hb p).mpr ⟨hpa, hpb⟩
    · intro q hq hqd
      exact eq_of_sortedIds_of_mem ha q
        (intersection_subset_left a b q hq) p hpa hqd
  · rw [union_eq_umerge a b ha hb]
    constructor
    · have hmem : p.document_id ∈ ids (umerge a b) :=
        (mem_ids_umerge a b p.document_id).mpr
          (Or.inl (List.mem_map_of_mem _ hpa))
      rcases mem_ids_iff.mp hmem with ⟨x, hx, hxd⟩
      have hxa : x ∈ a := umerge_left_wins a b ha hb x hx
        (by rw [hxd]; exact List.mem_map_of_mem _ hpa)
      have hxp : x = p := eq_of_sortedIds_of_mem ha x hxa p hpa hxd
      exact hxp ▸ hx
    · intro q hq hqd
      have hqa : q ∈ a := umerge_left_wins a b ha hb q hq
        (by rw [hqd]; exact List.mem_map_of_mem _ hpa)
      exact eq_of_sortedIds_of_mem ha q hqa p hpa hqd

theorem claim_c10_witness :
    (Posting.mk 3 7 ∈ intersection [Posting.mk 3 7, Posting.mk 5 7]
        [Posting.mk 3 9] ∧
      ∀ q ∈ intersection [Posting.mk 3 7, Posting.mk 5 7] [Posting.mk 3 9],
        q.document_id = (Posting.mk 3 7).document_id → q = Posting.mk 3 7) ∧
    (Posting.mk 3 7 ∈ union [Posting.mk 3 7, Posting.mk 5 7]
        [Posting.mk 3 9] ∧
      ∀ q ∈ union [Posting.mk 3 7, Posting.mk 5 7] [Posting.mk 3 9],
        q.document_id = (Posting.mk 3 7).document_id → q = Posting.mk 3 7) :=
  claim_c10_left_operand_wins _ _ (by decide) (by decide) _ (by decide)
    (by decide)

end In3120
